import Mathlib

/-!
Verification of the foldermd README generator (`main.go`).

This file gives a shallow embedding of the program's pure core:

* the ignore-pattern matcher `shouldIgnore` together with the Go standard
  library routine `path/filepath.Match` that it calls (embedded here as
  `goMatch`, byte-for-byte following `match.go` on Unix, with Go strings
  modelled as `List Char`; for the ASCII inputs the program deals in, one
  `Char` corresponds to one byte),
* the text/binary classifier `isTextFile`, the size formatter
  `formatFileSize` and the extension → language table,
* the tree renderer `writeTree`, the content renderer `writeFileContents`
  and the statistics walk of `writeProjectInfo`, over an inductive model
  `FSEntry` of a directory tree,
* the document assembly of `generateReadme`, and `createIgnoreFile`.

Filesystem reads are modelled by the `FSEntry` tree: a `file` node carries
its content (`content : String`, its on-disk bytes being the UTF-8
encoding), a flag `openOk` modelling whether `os.Open` succeeds on it, and
`readErr : Option String`, the error message of `os.ReadFile` when that
fails.  Directories are taken to be readable (an unreadable directory
aborts the whole run in `writeTree` and is skipped by the other walks, and
no claim concerns that path).  `os.ReadDir` and `filepath.WalkDir` return
entries sorted by file name; the model sorts child lists accordingly where
the traversal order matters.
-/

namespace FolderMD

/-- Byte-wise (here: code-point-wise, which agrees with UTF-8 byte order)
lexicographic strict comparison of strings, as Go's `<` on `string`. -/
def chLt : List Char → List Char → Bool
  | [], [] => false
  | [], _ :: _ => true
  | _ :: _, [] => false
  | a :: as, b :: bs => if a = b then chLt as bs else decide (a < b)

/-- Go `strings.TrimSpace` restricted to ASCII whitespace (space, tab,
newline, carriage return, vertical tab, form feed). -/
def isSpaceGo (c : Char) : Bool :=
  c == ' ' || c == '\t' || c == '\n' || c == '\x0d' ||
    c == Char.ofNat 11 || c == Char.ofNat 12

/-- Go `strings.TrimSpace` (ASCII scope): drop whitespace from both ends. -/
def goTrim (s : String) : String :=
  ⟨((s.data.dropWhile isSpaceGo).reverse.dropWhile isSpaceGo).reverse⟩

/-! ## The matcher: `path/filepath.Match` (Unix), called by `shouldIgnore`

`none` models a returned `ErrBadPattern`; `some b` models `(b, nil)`. -/

/-- The path separator, `/` on Unix. -/
def sep : Char := '/'

/-- Go `getEsc` from `match.go`: read a (possibly escaped) character of a
character class; errors on `-`, `]`, a dangling escape, or when nothing
follows the character (a class must still be closed). -/
def getEsc : List Char → Option (Char × List Char)
  | [] => none
  | c :: rest =>
    if c = '-' ∨ c = ']' then none
    else if c = '\\' then
      match rest with
      | [] => none
      | r :: rest2 => if rest2.isEmpty then none else some (r, rest2)
    else if rest.isEmpty then none else some (c, rest)

theorem getEsc_length : ∀ {c : List Char} {a : Char} {r : List Char},
    getEsc c = some (a, r) → r.length < c.length := by
  intro c a r h
  match c with
  | [] => exact absurd h (by simp [getEsc])
  | x :: xs =>
    simp only [getEsc] at h
    split at h
    · exact absurd h (by simp)
    · split at h
      · match xs with
        | [] => exact absurd h (by simp)
        | y :: ys =>
          simp only at h
          split at h
          · exact absurd h (by simp)
          · simp only [Option.some.injEq, Prod.mk.injEq] at h
            obtain ⟨rfl, rfl⟩ := h
            simp
            omega
      · split at h
        · exact absurd h (by simp)
        · simp only [Option.some.injEq, Prod.mk.injEq] at h
          obtain ⟨rfl, rfl⟩ := h
          simp

/-- The range-parsing loop of the `[` case of Go `matchChunk`: consume
character ranges until the closing `]` (which only counts once at least one
range was read), recording in `m` whether rune `r` lies in some range. -/
theorem getEsc_get_length {c : List Char} (h : (getEsc c).isSome) :
    ((getEsc c).get h).2.length < c.length := by
  have heq : getEsc c = some (((getEsc c).get h).1, ((getEsc c).get h).2) := by
    rw [Prod.mk.eta]
    exact (Option.some_get h).symm
  exact getEsc_length heq

def parseRanges (r : Char) (chunk : List Char) (m : Bool) (nrange : Nat) :
    Option (List Char × Bool) :=
  if chunk.head? = some ']' ∧ 0 < nrange then some (chunk.tail, m)
  else if h1 : (getEsc chunk).isSome then
    let lo := ((getEsc chunk).get h1).1
    let ch1 := ((getEsc chunk).get h1).2
    if ch1.head? = some '-' then
      if h3 : (getEsc ch1.tail).isSome then
        parseRanges r ((getEsc ch1.tail).get h3).2
          (m || decide (lo ≤ r ∧ r ≤ ((getEsc ch1.tail).get h3).1)) (nrange + 1)
      else none
    else
      parseRanges r ch1 (m || decide (lo ≤ r ∧ r ≤ lo)) (nrange + 1)
  else none
termination_by chunk.length
decreasing_by
  · have a1 := getEsc_get_length h1
    have a3 := getEsc_get_length h3
    have a2 : ((getEsc chunk).get h1).2.tail.length =
        ((getEsc chunk).get h1).2.length - 1 := by simp
    unfold_let ch1 at a3
    omega
  · exact getEsc_get_length h1

theorem parseRanges_length (r : Char) : ∀ {chunk : List Char} {m : Bool}
    {n : Nat} {out : List Char × Bool}, parseRanges r chunk m n = some out →
    out.1.length ≤ chunk.length := by
  intro chunk m n
  induction chunk, m, n using parseRanges.induct r with
  | case1 chunk m n hcond =>
    intro out h
    rw [parseRanges, if_pos hcond] at h
    simp only [Option.some.injEq] at h
    subst h
    simp
  | case2 chunk m n hcond h1 lo ch1 hdash h3 =>
    rename_i ih
    intro out h
    rw [parseRanges, if_neg hcond, dif_pos h1] at h
    simp only at h
    rw [if_pos hdash, dif_pos h3] at h
    have hr := ih h
    have a1 := getEsc_get_length h1
    have a3 := getEsc_get_length h3
    have a2 : ((getEsc chunk).get h1).2.tail.length =
        ((getEsc chunk).get h1).2.length - 1 := by simp
    have hbridge : ch1.tail.length = ((getEsc chunk).get h1).2.tail.length := rfl
    omega
  | case3 chunk m n hcond h1 ch1 hdash =>
    rename_i h3
    intro out h
    rw [parseRanges, if_neg hcond, dif_pos h1] at h
    simp only at h
    rw [if_pos hdash, dif_neg h3] at h
    exact absurd h (by simp)
  | case4 chunk m n hcond h1 lo ch1 hdash =>
    rename_i ih
    intro out h
    rw [parseRanges, if_neg hcond, dif_pos h1] at h
    simp only at h
    rw [if_neg hdash] at h
    have hr := ih h
    have a1 := getEsc_get_length h1
    have hbridge : ch1.length = ((getEsc chunk).get h1).2.length := rfl
    omega
  | case5 chunk m n hcond h1 =>
    intro out h
    rw [parseRanges, if_neg hcond, dif_neg h1] at h
    exact absurd h (by simp)

theorem parseRanges_get_length (r : Char) {chunk : List Char} {m : Bool}
    {n : Nat} (h : (parseRanges r chunk m n).isSome) :
    ((parseRanges r chunk m n).get h).1.length ≤ chunk.length := by
  have heq : parseRanges r chunk m n =
      some (((parseRanges r chunk m n).get h).1,
        ((parseRanges r chunk m n).get h).2) := by
    rw [Prod.mk.eta]
    exact (Option.some_get h).symm
  exact parseRanges_length r heq

/-- The values the `[` case of Go `matchChunk` computes before the range
loop: the rune to test (the NUL rune when the match has already failed),
the chunk after a possible leading `^`, the negation flag, and the
remaining name. -/
def bracketParts (s : List Char) (failed1 : Bool) (rest : List Char) :
    Char × List Char × Bool × List Char :=
  (if failed1 then Char.ofNat 0 else s.headI,
   if rest.head? = some '^' then rest.tail else rest,
   rest.head? == some '^',
   if failed1 then s else s.tail)

theorem bracketParts_chunk_le (s : List Char) (f : Bool) (rest : List Char) :
    (bracketParts s f rest).2.1.length ≤ rest.length := by
  rw [bracketParts]
  dsimp only
  split
  · simp
  · exact Nat.le_refl _

/-- Go `matchChunk` from `match.go`: match the leading non-`*` chunk of a
pattern against the head of `s`.  `failed` records an already-failed match;
parsing continues past a failure so malformed patterns still surface as
errors (`none`).  Returns `some (rest, ok)` for `(rest, ok, nil)`. -/
def matchChunk (chunk s : List Char) (failed : Bool) :
    Option (List Char × Bool) :=
  match chunk with
  | [] => if failed then some ([], false) else some (s, true)
  | c :: rest =>
    let failed1 := failed || s.isEmpty
    if c = '[' then
      if h1 : (parseRanges (bracketParts s failed1 rest).1
          (bracketParts s failed1 rest).2.1 false 0).isSome then
        matchChunk ((parseRanges (bracketParts s failed1 rest).1
            (bracketParts s failed1 rest).2.1 false 0).get h1).1
          (bracketParts s failed1 rest).2.2.2
          (failed1 || (((parseRanges (bracketParts s failed1 rest).1
              (bracketParts s failed1 rest).2.1 false 0).get h1).2
            == (bracketParts s failed1 rest).2.2.1))
      else none
    else if c = '?' then
      if failed1 then matchChunk rest s failed1
      else matchChunk rest s.tail (decide (s.headI = sep))
    else if c = '\\' then
      match rest with
      | [] => none
      | e :: rest2 =>
        if failed1 then matchChunk rest2 s failed1
        else matchChunk rest2 s.tail (decide (¬ e = s.headI))
    else
      if failed1 then matchChunk rest s failed1
      else matchChunk rest s.tail (decide (¬ c = s.headI))
termination_by chunk.length
decreasing_by
  all_goals first
    | (simp only [List.length_cons]; omega)
    | exact Nat.lt_of_le_of_lt
        (Nat.le_trans (parseRanges_get_length _ h1) (bracketParts_chunk_le _ _ _))
        (by simp)

/-- Leading-star consumption of Go `scanChunk`. -/
def dropStars : List Char → Bool × List Char
  | [] => (false, [])
  | c :: rest => if c = '*' then (true, (dropStars rest).2) else (false, c :: rest)

/-- The scan loop of Go `scanChunk`: copy the pattern into the chunk up to
the next `*` that is not inside a `[...]` range, skipping escaped
characters (an escape that ends the pattern is copied as is). -/
def scanBody : List Char → Bool → List Char × List Char
  | [], _ => ([], [])
  | c :: rest, inrange =>
    if c = '*' ∧ inrange = false then ([], c :: rest)
    else if c = '\\' then
      if rest.isEmpty then ([c], [])
      else (c :: rest.headI :: (scanBody rest.tail inrange).1,
        (scanBody rest.tail inrange).2)
    else
      (c :: (scanBody rest (if c = '[' then true
          else if c = ']' then false else inrange)).1,
        (scanBody rest (if c = '[' then true
          else if c = ']' then false else inrange)).2)
termination_by p _ => p.length
decreasing_by
  all_goals simp only [List.length_cons, List.length_tail]
  all_goals omega

/-- Go `scanChunk`: split a pattern into a leading-star flag, the first
chunk, and the remaining pattern. -/
def scanChunk (p : List Char) : Bool × List Char × List Char :=
  ((dropStars p).1, (scanBody (dropStars p).2 false).1,
    (scanBody (dropStars p).2 false).2)

theorem scanBody_append (p : List Char) (ir : Bool) :
    (scanBody p ir).1 ++ (scanBody p ir).2 = p := by
  induction p, ir using scanBody.induct with
  | case1 ir => simp [scanBody]
  | case2 c rest inrange h =>
    rw [scanBody, if_pos h]
    rfl
  | case3 rest inrange hemp hstar =>
    rw [scanBody, if_neg hstar]
    simp only [if_pos rfl, if_pos hemp]
    simpa using (List.isEmpty_iff.mp hemp).symm
  | case4 rest inrange hemp hstar ih =>
    rw [scanBody, if_neg hstar, if_pos rfl, if_neg hemp]
    simp only [List.cons_append]
    rw [ih]
    match rest, hemp with
    | d :: rest2, _ => rfl
  | case5 c rest inrange h1 h2 ih =>
    rw [scanBody, if_neg h1, if_neg h2]
    simp only [dite_eq_ite] at ih
    simp only [List.cons_append]
    rw [ih]

theorem scanBody_rest_le (p : List Char) (ir : Bool) :
    (scanBody p ir).2.length ≤ p.length := by
  have h := scanBody_append p ir
  have : ((scanBody p ir).1 ++ (scanBody p ir).2).length = p.length := by rw [h]
  simp at this
  omega

theorem dropStars_rest_le : ∀ p : List Char, (dropStars p).2.length ≤ p.length
  | [] => by simp [dropStars]
  | c :: rest => by
    rw [dropStars]
    split
    · have := dropStars_rest_le rest
      simp
      omega
    · simp

theorem dropStars_head : ∀ p : List Char, (dropStars p).2.head? ≠ some '*'
  | [] => by simp [dropStars]
  | c :: rest => by
    rw [dropStars]
    split
    · exact dropStars_head rest
    · simpa using fun h => by simp_all

theorem scanBody_cons_lt (c : Char) (q : List Char) (ir : Bool)
    (h : ¬(c = '*' ∧ ir = false)) :
    (scanBody (c :: q) ir).2.length < (c :: q).length := by
  rw [scanBody, if_neg h]
  split
  · split
    · simp
    · have a1 := scanBody_rest_le q.tail ir
      have a2 : q.tail.length = q.length - 1 := by simp
      simp only [List.length_cons]
      omega
  · have := scanBody_rest_le q (if c = '[' then true
      else if c = ']' then false else ir)
    simp only [List.length_cons]
    omega

theorem scanChunk_rest_lt (p : List Char) (hp : p ≠ []) :
    (scanChunk p).2.2.length < p.length := by
  rw [scanChunk]
  have hds := dropStars_rest_le p
  match hq : (dropStars p).2 with
  | [] =>
    have hlen : 0 < p.length := List.length_pos.mpr hp
    simpa [scanBody] using hlen
  | c :: q' =>
    have hhd := dropStars_head p
    rw [hq] at hhd
    have hc : c ≠ '*' := by simpa using hhd
    have hlt := scanBody_cons_lt c q' false (by simp [hc])
    rw [hq] at hds
    simp only []
    omega

/-- The star-backtracking loop of Go `Match`: retry `matchChunk` after
skipping one more character of `name` each time, never skipping a
separator.  `none`: error; `some none`: no position matched;
`some (some t)`: matched, leaving `t` of the name. -/
def starLoop (chunk : List Char) (patEmpty : Bool) :
    List Char → Option (Option (List Char))
  | [] => some none
  | c :: restName =>
    if c = sep then some none
    else
      match matchChunk chunk restName false with
      | none => none
      | some (t, ok) =>
        if ok then
          if patEmpty ∧ ¬t.isEmpty then starLoop chunk patEmpty restName
          else some (some t)
        else starLoop chunk patEmpty restName

/-- The tail-validation loop of Go `Match`: before a failed match returns,
check that the remainder of the pattern is syntactically valid. -/
def validateRest (p : List Char) : Option Unit :=
  if hp : p.isEmpty then some ()
  else
    match matchChunk (scanChunk p).2.1 [] false with
    | none => none
    | some _ => validateRest (scanChunk p).2.2
termination_by p.length
decreasing_by
  have hne : p ≠ [] := by
    intro h
    subst h
    simp at hp
  exact scanChunk_rest_lt p hne

/-- The `Pattern` loop of Go `filepath.Match` (Unix separator). -/
def goMatchAux (pat name : List Char) : Option Bool :=
  if hp : pat.isEmpty then some name.isEmpty
  else
    let star := (scanChunk pat).1
    let chunk := (scanChunk pat).2.1
    let rest := (scanChunk pat).2.2
    if star ∧ chunk.isEmpty then some (!(name.contains sep))
    else
      match matchChunk chunk name false with
      | none => none
      | some (t, ok) =>
        if ok ∧ (t.isEmpty ∨ ¬rest.isEmpty) then goMatchAux rest t
        else if star then
          match starLoop chunk rest.isEmpty name with
          | none => none
          | some (some t2) => goMatchAux rest t2
          | some none =>
            match validateRest rest with
            | none => none
            | some _ => some false
        else
          match validateRest rest with
          | none => none
          | some _ => some false
termination_by pat.length
decreasing_by
  all_goals {
    have hne : pat ≠ [] := by
      intro h
      subst h
      simp at hp
    exact scanChunk_rest_lt pat hne }

/-- Go `filepath.Match pattern name`; `none` models `ErrBadPattern`. -/
def goMatch (pattern name : String) : Option Bool :=
  goMatchAux pattern.data name.data

/-- One iteration of the loop body of `shouldIgnore` in `main.go`: trim the
pattern, test exact equality, else glob-match when the pattern contains a
`*`, discarding a match error. -/
def patMatches (p name : String) : Bool :=
  goTrim p == name ||
    ((goTrim p).data.contains '*' && (goMatch (goTrim p) name).getD false)

/-- `shouldIgnore` from `main.go`, taking the config's pattern list: the
loop returns true on the first pattern whose trimmed form equals `name`
or (for patterns containing `*`) glob-matches it. -/
def shouldIgnore (name : String) (patterns : List String) : Bool :=
  patterns.any (fun p => patMatches p name)

set_option maxHeartbeats 1000000 in
set_option maxRecDepth 4096 in
theorem goMatch_star_log : goMatch "*.log" "a.log" = some true := by
  simp [goMatch, goMatchAux, scanChunk, dropStars, scanBody, matchChunk,
    bracketParts, starLoop, validateRest, parseRanges, getEsc, sep]

set_option maxHeartbeats 1000000 in
set_option maxRecDepth 4096 in
theorem goMatch_class : goMatch "[a-c]x" "bx" = some true := by
  simp [goMatch, goMatchAux, scanChunk, dropStars, scanBody, matchChunk,
    bracketParts, starLoop, validateRest, parseRanges, getEsc, sep]

set_option maxHeartbeats 1000000 in
set_option maxRecDepth 4096 in
theorem goMatch_bad : goMatch "*[" "x" = none := by
  simp [goMatch, goMatchAux, scanChunk, dropStars, scanBody, matchChunk,
    bracketParts, starLoop, validateRest, parseRanges, getEsc, sep]

theorem option_getD_false_eq_true {o : Option Bool} :
    o.getD false = true ↔ o = some true := by
  cases o <;> simp

/-- C2: for every name and pattern list of trimmed patterns (as the CLI
parser and the ignore-file reader produce them), `shouldIgnore` returns
true iff some pattern equals the name exactly or, when the pattern
contains the wildcard character `*`, shell-glob matches the name
(`filepath.Match` returning `(true, nil)`); the result is a union over
the patterns, hence independent of their order, and the empty pattern
list ignores nothing. -/
theorem C2_shouldIgnore_union (name : String) (ps : List String)
    (htrim : ∀ p ∈ ps, goTrim p = p) :
    (shouldIgnore name ps = true ↔
      ∃ p ∈ ps, p = name ∨
        (p.data.contains '*' = true ∧ goMatch p name = some true)) ∧
    shouldIgnore name [] = false ∧
    (∀ qs : List String, ps.Perm qs →
      shouldIgnore name ps = shouldIgnore name qs) := by
  refine ⟨?_, rfl, ?_⟩
  · rw [shouldIgnore, List.any_eq_true]
    constructor
    · rintro ⟨p, hp, hm⟩
      refine ⟨p, hp, ?_⟩
      rw [patMatches, htrim p hp] at hm
      simp only [Bool.or_eq_true, beq_iff_eq, Bool.and_eq_true] at hm
      rcases hm with h | ⟨hc, hg⟩
      · exact Or.inl h
      · exact Or.inr ⟨hc, option_getD_false_eq_true.mp hg⟩
    · rintro ⟨p, hp, hm⟩
      refine ⟨p, hp, ?_⟩
      rw [patMatches, htrim p hp]
      simp only [Bool.or_eq_true, beq_iff_eq, Bool.and_eq_true]
      rcases hm with h | ⟨hc, hg⟩
      · exact Or.inl h
      · exact Or.inr ⟨hc, option_getD_false_eq_true.mpr hg⟩
  · intro qs hq
    rw [shouldIgnore, shouldIgnore, List.any_eq, List.any_eq]
    simp [hq.mem_iff]

theorem C2_shouldIgnore_union_witness :
    (∀ p ∈ ["node_modules"], goTrim p = p) ∧
    ((shouldIgnore "node_modules" ["node_modules"] = true ↔
      ∃ p ∈ ["node_modules"], p = "node_modules" ∨
        (p.data.contains '*' = true ∧ goMatch p "node_modules" = some true)) ∧
    shouldIgnore "node_modules" [] = false ∧
    (∀ qs : List String, ["node_modules"].Perm qs →
      shouldIgnore "node_modules" ["node_modules"] =
        shouldIgnore "node_modules" qs)) :=
  ⟨by decide, C2_shouldIgnore_union "node_modules" ["node_modules"] (by decide)⟩

/-- C10: a pattern containing `*` on which `filepath.Match` reports a
pattern error has that error silently discarded by `shouldIgnore`: the
glob branch never matches the name, so such a pattern can only ignore an
entry by exact (trimmed) string equality with its name. -/
theorem C10_malformed_glob (p name : String)
    (hstar : (goTrim p).data.contains '*' = true)
    (herr : goMatch (goTrim p) name = none) :
    shouldIgnore name [p] = (goTrim p == name) := by
  rw [shouldIgnore]
  simp only [List.any_cons, List.any_nil, Bool.or_false]
  rw [patMatches, hstar, herr]
  simp

set_option maxHeartbeats 1000000 in
set_option maxRecDepth 4096 in
theorem C10_malformed_glob_witness :
    (((goTrim "*[").data.contains '*' = true) ∧
      goMatch (goTrim "*[") "x" = none) ∧
    shouldIgnore "x" ["*["] = (goTrim "*[" == "x") := by
  have htr : goTrim "*[" = "*[" := by decide
  refine ⟨⟨by decide, ?_⟩, C10_malformed_glob "*[" "x" (by decide) ?_⟩ <;>
    (rw [htr]; exact goMatch_bad)

/-! ## The classifier: `isTextFile`, `formatFileSize`, the language table -/

/-- UTF-8 encoding of one character, as the bytes Go reads from a file
holding the modelled content. -/
def utf8Bytes (c : Char) : List Nat :=
  let n := c.toNat
  if n < 0x80 then [n]
  else if n < 0x800 then
    [0xC0 ||| (n >>> 6), 0x80 ||| (n &&& 0x3F)]
  else if n < 0x10000 then
    [0xE0 ||| (n >>> 12), 0x80 ||| ((n >>> 6) &&& 0x3F), 0x80 ||| (n &&& 0x3F)]
  else
    [0xF0 ||| (n >>> 18), 0x80 ||| ((n >>> 12) &&& 0x3F),
      0x80 ||| ((n >>> 6) &&& 0x3F), 0x80 ||| (n &&& 0x3F)]

/-- The bytes of a file whose (UTF-8) content is the string `s`; Go's
`len` of the string and the data `os.ReadFile` returns. -/
def goBytes (s : String) : List Nat :=
  (s.data.map utf8Bytes).join

/-- `isTextFile` from `main.go` on the modelled file: `openOk` is whether
`os.Open` succeeds (failure ⇒ `false`); the first `Read` returns
`min 512 size` bytes, and for an empty file `(0, io.EOF)`, which the
`err != nil && n == 0` test turns into `false`; otherwise any 0x00 byte
among those read classifies the file as binary.  The file's path (and in
particular its extension) plays no part. -/
def isTextFile (openOk : Bool) (content : String) : Bool :=
  if !openOk then false
  else
    let bytes := (goBytes content).take 512
    if bytes.length = 0 then false
    else bytes.all (fun b => decide (¬ b = 0))

/-- The `div`/`exp` loop of `formatFileSize`. -/
def sizeLoop (n div exp : Nat) : Nat × Nat :=
  if n ≥ 1024 then sizeLoop (n / 1024) (div * 1024) (exp + 1) else (div, exp)
termination_by n
decreasing_by
  exact Nat.div_lt_self (by omega) (by omega)

/-- Decimal rendering of Go's `%.1f` applied to `float64(size)/float64(div)`:
with `div` a power of two and `size` below `2^53` the float division is
exact, and `%.1f` rounds the exact value to one decimal, ties to even. -/
def round1 (size div : Nat) : Nat :=
  let q := size * 10 / div
  let r := size * 10 % div
  if 2 * r > div then q + 1
  else if 2 * r < div then q
  else if q % 2 = 1 then q + 1 else q

/-- `formatFileSize` from `main.go` (sizes are non-negative). -/
def formatFileSize (size : Nat) : String :=
  if size < 1024 then toString size ++ " B"
  else
    let de := sizeLoop (size / 1024) 1024 0
    let q := round1 size de.1
    toString (q / 10) ++ "." ++ toString (q % 10) ++ " " ++
      String.mk ["KMGTPE".data.getD de.2 'E'] ++ "B"

/-- The extension → language table of `getLanguageFromExtension`. -/
def languagesList : List (String × String) :=
  [(".go", "go"), (".py", "python"), (".js", "javascript"),
   (".ts", "typescript"), (".jsx", "jsx"), (".tsx", "tsx"),
   (".java", "java"), (".c", "c"), (".cpp", "cpp"), (".cc", "cpp"),
   (".cxx", "cpp"), (".h", "c"), (".hpp", "cpp"), (".hxx", "cpp"),
   (".rs", "rust"), (".php", "php"), (".rb", "ruby"), (".sh", "bash"),
   (".bash", "bash"), (".zsh", "zsh"), (".fish", "fish"),
   (".ps1", "powershell"), (".html", "html"), (".htm", "html"),
   (".css", "css"), (".scss", "scss"), (".sass", "sass"),
   (".less", "less"), (".xml", "xml"), (".json", "json"),
   (".yaml", "yaml"), (".yml", "yaml"), (".toml", "toml"),
   (".ini", "ini"), (".cfg", "ini"), (".conf", "ini"),
   (".md", "markdown"), (".txt", "text"), (".sql", "sql"), (".r", "r"),
   (".m", "matlab"), (".swift", "swift"), (".kt", "kotlin"),
   (".kts", "kotlin"), (".scala", "scala"), (".clj", "clojure"),
   (".cljs", "clojure"), (".hs", "haskell"), (".elm", "elm"),
   (".ex", "elixir"), (".exs", "elixir"), (".erl", "erlang"),
   (".dart", "dart"), (".lua", "lua"), (".pl", "perl"), (".vim", "vim"),
   (".dockerfile", "dockerfile"), (".gitignore", "gitignore"),
   (".env", "bash"), (".makefile", "makefile"), (".cmake", "cmake")]

/-- `getLanguageFromExtension` from `main.go`: table lookup, `"text"`
for an unknown extension. -/
def getLanguageFromExtension (ext : String) : String :=
  match languagesList.lookup ext with
  | some l => l
  | none => "text"

/-- The scan of Go `filepath.Ext` run on the reversed path: walk back
from the end, stop at a separator, return the suffix from the last `.`. -/
def extRev : List Char → List Char → Option (List Char)
  | [], _ => none
  | c :: rest, acc =>
    if c = '/' then none
    else if c = '.' then some (c :: acc)
    else extRev rest (c :: acc)

/-- Go `filepath.Ext`. -/
def goExt (path : String) : String :=
  match extRev path.data.reverse [] with
  | some l => ⟨l⟩
  | none => ""

/-- Go `strings.ToLower` (ASCII scope, which covers the table's keys). -/
def goToLower (s : String) : String :=
  ⟨s.data.map Char.toLower⟩

/-- C5: `isTextFile` fails closed on an unopenable (or unreadable) file,
classifies a file as binary whenever one of its first 512 bytes is 0x00,
and depends only on those first 512 bytes — the path, hence the
extension, never enters the classification (the function takes none). -/
theorem C5_isTextFile_spec :
    (∀ content : String, isTextFile false content = false) ∧
    (∀ (ok : Bool) (content : String),
      (∃ b ∈ (goBytes content).take 512, b = 0) →
      isTextFile ok content = false) ∧
    (∀ (ok : Bool) (c1 c2 : String),
      (goBytes c1).take 512 = (goBytes c2).take 512 →
      isTextFile ok c1 = isTextFile ok c2) := by
  refine ⟨fun content => by simp [isTextFile], ?_, ?_⟩
  · intro ok content h
    obtain ⟨b, hb, hb0⟩ := h
    subst hb0
    rw [isTextFile]
    cases ok
    · simp
    · simp only [Bool.not_true, Bool.false_eq_true, if_false]
      split
      · rfl
      · rw [List.all_eq_false]
        exact ⟨0, hb, by simp⟩
  · intro ok c1 c2 h
    rw [isTextFile, isTextFile, h]

theorem C5_isTextFile_spec_witness :
    (∃ b ∈ (goBytes "a\x00b").take 512, b = 0) ∧
    isTextFile true "a\x00b" = false := by
  refine ⟨by decide, C5_isTextFile_spec.2.1 true "a\x00b" (by decide)⟩

/-! ## The directory-tree model and the entry ordering of `writeTree` -/

/-- The per-run configuration of `main.go` (`Config`), after flag
parsing.  `maxDepth` is `-1` for unlimited. -/
structure Config where
  includeFiles : Bool
  includeContent : Bool
  outputFile : String
  ignorePatterns : List String
  maxDepth : Int
  showHidden : Bool
  targetDir : String

/-- A directory tree.  A file carries its textual content (its on-disk
bytes are `goBytes content`), whether `os.Open` succeeds on it, and the
error message of `os.ReadFile` when that read fails. -/
inductive FSEntry where
  | file (name : String) (content : String) (openOk : Bool)
      (readErr : Option String)
  | dir (name : String) (children : List FSEntry)

def FSEntry.name : FSEntry → String
  | .file n _ _ _ => n
  | .dir n _ => n

def FSEntry.isDir : FSEntry → Bool
  | .file _ _ _ _ => false
  | .dir _ _ => true

/-- `Info.Size()` of a file: its length in bytes (0 for directories,
whose size the program never uses). -/
def FSEntry.size : FSEntry → Nat
  | .file _ c _ _ => (goBytes c).length
  | .dir _ _ => 0

/-- Byte-wise `<` of Go strings (`name < name` in the sort closure). -/
def goStrLt (a b : String) : Bool := chLt a.data b.data

/-- The `less` closure of the `sort.Slice` call in `writeTree`:
directories before files; within a group, byte-wise name order. -/
def entLess (a b : FSEntry) : Bool :=
  if a.isDir ≠ b.isDir then a.isDir else goStrLt a.name b.name

/-- The ordering a slice sorted by `entLess` satisfies: `a` may precede
`b` iff `b` need not come strictly first. -/
def entLE (a b : FSEntry) : Prop := entLess b a = false

instance : DecidableRel entLE := fun _ _ => instDecidableEqBool _ _

theorem chLt_irrefl : ∀ a : List Char, chLt a a = false
  | [] => rfl
  | c :: cs => by
    rw [chLt]
    simp [chLt_irrefl cs]

theorem chLt_asymm : ∀ {a b : List Char}, chLt a b = true → chLt b a = false
  | [], [], h => by simp [chLt] at h
  | [], _ :: _, _ => by rw [chLt]
  | _ :: _, [], h => by simp [chLt] at h
  | a :: as, b :: bs, h => by
    rw [chLt] at h ⊢
    by_cases hab : a = b
    · subst hab
      simp at h ⊢
      exact chLt_asymm h
    · have hba : ¬ b = a := fun hh => hab hh.symm
      simp [hab] at h
      simp [hba]
      exact le_of_lt h

theorem chLt_connex : ∀ {a b : List Char},
    chLt a b = false → chLt b a = false → a = b
  | [], [], _, _ => rfl
  | [], _ :: _, h, _ => by simp [chLt] at h
  | _ :: _, [], _, h => by simp [chLt] at h
  | a :: as, b :: bs, h, h' => by
    rw [chLt] at h h'
    by_cases hab : a = b
    · subst hab
      simp at h h'
      rw [chLt_connex h h']
    · have hba : ¬ b = a := fun hh => hab hh.symm
      simp [hab] at h
      simp [hba] at h'
      exact absurd (le_antisymm h' h) hab

theorem chLt_trans : ∀ {a b c : List Char},
    chLt a b = true → chLt b c = true → chLt a c = true
  | [], _, _ :: _, _, _ => by rw [chLt]
  | [], _ :: _, [], _, h => by simp [chLt] at h
  | [], [], [], h, _ => by simp [chLt] at h
  | _ :: _, [], _, h, _ => by simp [chLt] at h
  | _ :: _, _ :: _, [], _, h => by simp [chLt] at h
  | a :: as, b :: bs, c :: cs, h, h' => by
    rw [chLt] at h h' ⊢
    by_cases hab : a = b
    · subst hab
      simp at h
      by_cases hac : a = c
      · subst hac
        simp at h' ⊢
        exact chLt_trans h h'
      · simp [hac] at h' ⊢
        exact h'
    · simp [hab] at h
      by_cases hbc : b = c
      · subst hbc
        simp [hab]
        exact h
      · simp [hbc] at h'
        have hlt : a < c := lt_trans h h'
        simp [ne_of_lt hlt, hlt]

theorem str_ext {s t : String} (h : s.data = t.data) : s = t := by
  cases s
  cases t
  simp only at h
  rw [h]

theorem entLE_total (a b : FSEntry) : entLE a b ∨ entLE b a := by
  rw [entLE, entLE, entLess, entLess]
  rcases hda : a.isDir <;> rcases hdb : b.isDir <;> simp [hda, hdb]
  · by_cases h : chLt b.name.data a.name.data = true
    · right
      exact chLt_asymm h
    · left
      simpa using h
  · by_cases h : chLt b.name.data a.name.data = true
    · right
      exact chLt_asymm h
    · left
      simpa using h

theorem entLE_name_eq {a b : FSEntry} (h1 : entLE a b) (h2 : entLE b a) :
    a.name = b.name ∧ a.isDir = b.isDir := by
  rw [entLE, entLess] at h1 h2
  rcases hda : a.isDir <;> rcases hdb : b.isDir <;>
    simp [hda, hdb, goStrLt] at h1 h2 ⊢
  · exact str_ext (chLt_connex h2 h1)
  · exact str_ext (chLt_connex h2 h1)

theorem entLE_trans {a b c : FSEntry} (h1 : entLE a b) (h2 : entLE b c) :
    entLE a c := by
  rw [entLE, entLess] at h1 h2 ⊢
  rcases hda : a.isDir <;> rcases hdb : b.isDir <;> rcases hdc : c.isDir <;>
    simp [hda, hdb, hdc, goStrLt] at h1 h2 ⊢
  · by_cases hx : chLt a.name.data b.name.data = true
    · rcases hy : chLt c.name.data a.name.data
      · rfl
      · exact absurd (chLt_trans hy hx) (by simp [h2])
    · have heq := chLt_connex (by simpa using hx) h1
      rw [← heq] at h2
      exact h2
  · by_cases hx : chLt a.name.data b.name.data = true
    · rcases hy : chLt c.name.data a.name.data
      · rfl
      · exact absurd (chLt_trans hy hx) (by simp [h2])
    · have heq := chLt_connex (by simpa using hx) h1
      rw [← heq] at h2
      exact h2

instance : IsTotal FSEntry entLE := ⟨entLE_total⟩

instance : IsTrans FSEntry entLE := ⟨fun _ _ _ => entLE_trans⟩

/-- The sorted order `sort.Slice` produces in `writeTree`: since the
comparator admits no ties between entries with distinct names, the
(unstable) sort has a unique possible output, modelled by insertion
sort. -/
def sortEntries (l : List FSEntry) : List FSEntry :=
  List.insertionSort entLE l

theorem sortEntries_perm (l : List FSEntry) : (sortEntries l).Perm l :=
  List.perm_insertionSort entLE l

theorem sortEntries_sorted (l : List FSEntry) :
    (sortEntries l).Sorted entLE :=
  List.sorted_insertionSort entLE l

theorem sorted_perm_unique : ∀ {l1 l2 : List FSEntry}, l1.Perm l2 →
    l1.Sorted entLE → l2.Sorted entLE →
    (l1.map FSEntry.name).Nodup → l1 = l2
  | [], l2, hp, _, _, _ => hp.nil_eq
  | a :: t1, [], hp, _, _, _ => by simpa using hp.length_eq
  | a :: t1, b :: t2, hp, hs1, hs2, hnd => by
    by_cases hab : a = b
    · subst hab
      rw [sorted_perm_unique hp.cons_inv hs1.of_cons hs2.of_cons
        (by simpa using hnd.of_cons)]
    · exfalso
      have ha2 : a ∈ t2 := by
        have := hp.mem_iff.mp (List.mem_cons_self a t1)
        simpa [hab] using this
      have hb1 : b ∈ t1 := by
        have := hp.mem_iff.mpr (List.mem_cons_self b t2)
        simpa [Ne.symm hab] using this
      have hle1 : entLE a b := (List.sorted_cons.mp hs1).1 b hb1
      have hle2 : entLE b a := (List.sorted_cons.mp hs2).1 a ha2
      have hname := (entLE_name_eq hle1 hle2).1
      have : a.name ∈ t1.map FSEntry.name := by
        rw [hname]
        exact List.mem_map_of_mem FSEntry.name hb1
      rw [List.map_cons] at hnd
      exact (List.nodup_cons.mp hnd).1 this

/-- C6: the tree renderer's ordering is total, places all directories
before all files and sorts each group byte-wise by name, and it is
deterministic: `sortEntries` permutes its input into an order sorted by
the code's comparator, and (for entries with pairwise distinct names,
as directory listings are) any two sorted permutations are equal, so
sorting the same input twice yields identical output. -/
theorem C6_sort_total_deterministic (l : List FSEntry) :
    (∀ a b : FSEntry, entLE a b ∨ entLE b a) ∧
    (sortEntries l).Perm l ∧
    (sortEntries l).Sorted entLE ∧
    (sortEntries l).Pairwise (fun a b =>
      (b.isDir = true → a.isDir = true) ∧
      (a.isDir = b.isDir → chLt b.name.data a.name.data = false)) ∧
    ((l.map FSEntry.name).Nodup →
      ∀ l1 l2 : List FSEntry, l1.Perm l → l2.Perm l →
        l1.Sorted entLE → l2.Sorted entLE → l1 = l2) := by
  refine ⟨entLE_total, sortEntries_perm l, sortEntries_sorted l, ?_, ?_⟩
  · refine (sortEntries_sorted l).imp ?_
    intro a b h
    rw [entLE, entLess] at h
    constructor
    · intro hb
      by_contra ha
      simp [Bool.not_eq_true] at ha
      simp [hb, ha] at h
    · intro hd
      simpa [hd] using h
  · intro hnd l1 l2 hp1 hp2 hs1 hs2
    refine sorted_perm_unique (hp1.trans hp2.symm) hs1 hs2 ?_
    exact (hp1.map FSEntry.name).nodup_iff.mpr hnd

theorem C6_sort_total_deterministic_witness :
    ((List.map FSEntry.name [FSEntry.file "b" "" true none,
        FSEntry.dir "a" []]).Nodup) ∧
    ([FSEntry.dir "a" [], FSEntry.file "b" "" true none] =
      [FSEntry.dir "a" [], FSEntry.file "b" "" true none]) := by
  refine ⟨by decide, ?_⟩
  refine (C6_sort_total_deterministic
    [FSEntry.file "b" "" true none, FSEntry.dir "a" []]).2.2.2.2
    (by decide)
    [FSEntry.dir "a" [], FSEntry.file "b" "" true none]
    [FSEntry.dir "a" [], FSEntry.file "b" "" true none]
    (List.Perm.swap _ _ _) (List.Perm.swap _ _ _)
    (by decide) (by decide)

/-! ## The tree renderer `writeTree`

`writeTree` reads a directory, filters and sorts its entries, prints one
line per entry and recurses into subdirectories.  The model splits this
into a pruning phase (`pruneE`/`pruneL`), which applies the same filter
and sort at every directory, and an emission phase (`emitL`/`emitE`).
The split is sound because the filter and the comparator depend only on
an entry's name and kind, which pruning preserves, and the depth guard
is applied unchanged during emission. -/

/-- The filter of `writeTree` (and, for files, of `writeFileContents`):
drop ignored entries, hidden entries unless `showHidden`, and files
unless `includeFiles`. -/
def keepEntry (cfg : Config) (e : FSEntry) : Bool :=
  !shouldIgnore e.name cfg.ignorePatterns &&
    (cfg.showHidden || !(e.name.data.head? == some '.')) &&
    (cfg.includeFiles || e.isDir)

def filterEntries (cfg : Config) (l : List FSEntry) : List FSEntry :=
  l.filter (keepEntry cfg)

mutual
def pruneE (cfg : Config) : FSEntry → FSEntry
  | .file n c o r => .file n c o r
  | .dir n ch => .dir n (sortEntries (filterEntries cfg (pruneL cfg ch)))
def pruneL (cfg : Config) : List FSEntry → List FSEntry
  | [] => []
  | e :: es => pruneE cfg e :: pruneL cfg es
end

/-- Name decoration of a tree line (`writeTree`, emoji in content mode,
trailing slash on directories). -/
def decorateName (cfg : Config) (e : FSEntry) : String :=
  if cfg.includeContent then
    if e.isDir then "📁 " ++ e.name ++ "/" else "📄 " ++ e.name
  else if e.isDir then e.name ++ "/" else e.name

mutual
/-- Recursion of `writeTree` into one (pruned) entry: nothing for a
file; for a directory, the guarded recursive call with the extended
prefix and `depth + 1`. -/
def emitE (cfg : Config) (e : FSEntry) (nextPre : String) (depth : Nat)
    (path : List String) : List (List String × String) :=
  match e with
  | .file _ _ _ _ => []
  | .dir _ ch =>
    if cfg.maxDepth ≥ 0 ∧ (depth : Int) > cfg.maxDepth then []
    else emitL cfg ch nextPre depth path
/-- The entry loop of `writeTree` over the (pruned) entries of one
directory at call depth `depth`, ancestors' names `anc`: each element
pairs the path of the printed entry with its printed line. -/
def emitL (cfg : Config) : List FSEntry → String → Nat → List String →
    List (List String × String)
  | [], _, _, _ => []
  | e :: rest, pre, depth, anc =>
    (anc ++ [e.name],
      pre ++ (if rest.isEmpty then "└── " else "├── ") ++ decorateName cfg e) ::
      (emitE cfg e (pre ++ (if rest.isEmpty then "    " else "│   "))
        (depth + 1) (anc ++ [e.name]) ++
        emitL cfg rest pre depth anc)
end

/-- `writeTree(file, targetDir, "", config, 0)`: the pairs of visited
entry path and printed line; the tree block's lines are the second
components in order. -/
def writeTreePairs (cfg : Config) (rootChildren : List FSEntry) :
    List (List String × String) :=
  if cfg.maxDepth ≥ 0 ∧ (0 : Int) > cfg.maxDepth then []
  else emitL cfg (sortEntries (filterEntries cfg (pruneL cfg rootChildren))) "" 0 []

/-- The paths `writeTree` visits. -/
def treeVisits (cfg : Config) (rootChildren : List FSEntry) :
    List (List String) :=
  (writeTreePairs cfg rootChildren).map Prod.fst

/-- The lines of the tree block. -/
def treeLines (cfg : Config) (rootChildren : List FSEntry) : List String :=
  (writeTreePairs cfg rootChildren).map Prod.snd

/-! ## Specification-side view of the traversal, for C3 -/

mutual
/-- The paths below one (already pruned) entry, unbounded by depth. -/
def allPathsE : FSEntry → List String → List (List String)
  | .file _ _ _ _, _ => []
  | .dir _ ch, path => allPathsL ch path
/-- The paths of a (already pruned) forest, unbounded by depth. -/
def allPathsL : List FSEntry → List String → List (List String)
  | [], _ => []
  | e :: rest, anc =>
    (anc ++ [e.name]) :: (allPathsE e (anc ++ [e.name]) ++ allPathsL rest anc)
end

/-- `visible cfg ch p`: the path `p` names an entry of the tree with
root children `ch` that `writeTree`'s filter keeps, all of whose
ancestors the filter also keeps — the claim's "non-ignored entry". -/
def visible (cfg : Config) : List FSEntry → List String → Prop
  | _, [] => False
  | ch, [n] => ∃ e ∈ ch, e.name = n ∧ keepEntry cfg e = true
  | ch, n :: r :: rest => ∃ e ∈ ch, e.name = n ∧ keepEntry cfg e = true ∧
      ∃ ch2, e = .dir n ch2 ∧ visible cfg ch2 (r :: rest)

/-- Replace the `maxDepth` of a configuration (all other fields kept). -/
def setDepth (cfg : Config) (d : Int) : Config :=
  Config.mk cfg.includeFiles cfg.includeContent cfg.outputFile
    cfg.ignorePatterns d cfg.showHidden cfg.targetDir

mutual
theorem allPathsE_shift : ∀ (e : FSEntry) (a b : List String),
    allPathsE e (a ++ b) = (allPathsE e b).map (fun q => a ++ q)
  | .file _ _ _ _, _, _ => rfl
  | .dir _ ch, a, b => by
    rw [allPathsE, allPathsE]
    exact allPathsL_shift ch a b
theorem allPathsL_shift : ∀ (es : List FSEntry) (a b : List String),
    allPathsL es (a ++ b) = (allPathsL es b).map (fun q => a ++ q)
  | [], _, _ => rfl
  | e :: rest, a, b => by
    rw [allPathsL, allPathsL]
    simp only [List.map_cons, List.map_append]
    rw [List.append_assoc a b [e.name], allPathsE_shift e a (b ++ [e.name]),
      allPathsL_shift rest a b]
end

theorem allPathsL_anc (es : List FSEntry) (anc : List String) :
    allPathsL es anc = (allPathsL es []).map (fun q => anc ++ q) := by
  have h := allPathsL_shift es anc []
  rwa [List.append_nil] at h

theorem allPathsE_anc (e : FSEntry) (anc : List String) :
    allPathsE e anc = (allPathsE e []).map (fun q => anc ++ q) := by
  have h := allPathsE_shift e anc []
  rwa [List.append_nil] at h

theorem mem_allPathsL : ∀ (es : List FSEntry) (anc p : List String),
    p ∈ allPathsL es anc ↔
      ∃ e ∈ es, p = anc ++ [e.name] ∨ p ∈ allPathsE e (anc ++ [e.name])
  | [], anc, p => by simp [allPathsL]
  | e :: rest, anc, p => by
    rw [allPathsL]
    simp only [List.mem_cons, List.mem_append, mem_allPathsL rest anc p]
    constructor
    · rintro (h | h | ⟨e2, he2, h⟩)
      · exact ⟨e, Or.inl rfl, Or.inl h⟩
      · exact ⟨e, Or.inl rfl, Or.inr h⟩
      · exact ⟨e2, Or.inr he2, h⟩
    · rintro ⟨e2, rfl | he2, h⟩
      · rcases h with h | h
        · exact Or.inl h
        · exact Or.inr (Or.inl h)
      · exact Or.inr (Or.inr ⟨e2, he2, h⟩)

theorem pruneL_eq_map (cfg : Config) : ∀ l : List FSEntry,
    pruneL cfg l = l.map (pruneE cfg)
  | [] => rfl
  | e :: es => by rw [pruneL, List.map_cons, pruneL_eq_map cfg es]

theorem pruneE_name (cfg : Config) : ∀ e : FSEntry,
    (pruneE cfg e).name = e.name
  | .file _ _ _ _ => rfl
  | .dir _ _ => rfl

theorem pruneE_isDir (cfg : Config) : ∀ e : FSEntry,
    (pruneE cfg e).isDir = e.isDir
  | .file _ _ _ _ => rfl
  | .dir _ _ => rfl

theorem keepEntry_pruneE (cfg : Config) (e : FSEntry) :
    keepEntry cfg (pruneE cfg e) = keepEntry cfg e := by
  rw [keepEntry, keepEntry, pruneE_name, pruneE_isDir]

/-- Membership in the pruned, filtered, sorted children in terms of the
original children. -/
theorem mem_prunedTop (cfg : Config) (ch : List FSEntry) (e' : FSEntry) :
    e' ∈ sortEntries (filterEntries cfg (pruneL cfg ch)) ↔
      ∃ e ∈ ch, keepEntry cfg e = true ∧ e' = pruneE cfg e := by
  rw [(sortEntries_perm _).mem_iff, filterEntries, List.mem_filter,
    pruneL_eq_map]
  constructor
  · rintro ⟨hmem, hkeep⟩
    obtain ⟨e, he, rfl⟩ := List.mem_map.mp hmem
    exact ⟨e, he, by rwa [keepEntry_pruneE] at hkeep, rfl⟩
  · rintro ⟨e, he, hkeep, rfl⟩
    exact ⟨List.mem_map_of_mem _ he, by rwa [keepEntry_pruneE]⟩

/-- The inductive content of `mem_visPaths` for one entry: the paths
below the pruned entry, rooted at its own name, are exactly the paths
`name :: q'` with `q'` visible among the entry's children. -/
def pathProp (cfg : Config) (e : FSEntry) : Prop :=
  ∀ q : List String, q ∈ allPathsE (pruneE cfg e) [e.name] ↔
    ∃ ch0, e = .dir e.name ch0 ∧ ∃ q', q = e.name :: q' ∧ visible cfg ch0 q'

def pathPropL (cfg : Config) : List FSEntry → Prop
  | [] => True
  | e :: es => pathProp cfg e ∧ pathPropL cfg es

theorem pathPropL_forall (cfg : Config) : ∀ {ch : List FSEntry},
    pathPropL cfg ch → ∀ e ∈ ch, pathProp cfg e
  | [], _, e, he => absurd he (List.not_mem_nil e)
  | e0 :: es, h, e, he => by
    rcases List.mem_cons.mp he with rfl | he2
    · exact h.1
    · exact pathPropL_forall cfg h.2 e he2

theorem visL_of (cfg : Config) (ch : List FSEntry)
    (hall : ∀ e ∈ ch, pathProp cfg e) (q : List String) :
    q ∈ allPathsL (sortEntries (filterEntries cfg (pruneL cfg ch))) [] ↔
      visible cfg ch q := by
  rw [mem_allPathsL]
  constructor
  · rintro ⟨e', he', hq⟩
    obtain ⟨e, he, hkeep, rfl⟩ := (mem_prunedTop cfg ch e').mp he'
    rw [List.nil_append, pruneE_name] at hq
    rcases hq with rfl | hq
    · simp only [visible]
      exact ⟨e, he, rfl, hkeep⟩
    · obtain ⟨ch0, hdir, q', rfl, hvis⟩ := (hall e he q).mp hq
      match q', hvis with
      | [], hvis => exact absurd hvis (by simp [visible])
      | r :: rest, hvis =>
        simp only [visible]
        exact ⟨e, he, rfl, hkeep, ch0, hdir, hvis⟩
  · intro hvis
    match q, hvis with
    | [], hvis => exact absurd hvis (by simp [visible])
    | [n], hvis =>
      simp only [visible] at hvis
      obtain ⟨e, he, hname, hkeep⟩ := hvis
      refine ⟨pruneE cfg e, (mem_prunedTop cfg ch _).mpr ⟨e, he, hkeep, rfl⟩, ?_⟩
      rw [List.nil_append, pruneE_name, hname]
      exact Or.inl rfl
    | n :: r :: rest, hvis =>
      simp only [visible] at hvis
      obtain ⟨e, he, hname, hkeep, ch0, hdir, hvis0⟩ := hvis
      refine ⟨pruneE cfg e, (mem_prunedTop cfg ch _).mpr ⟨e, he, hkeep, rfl⟩, ?_⟩
      rw [List.nil_append, pruneE_name]
      refine Or.inr ((hall e he _).mpr ⟨ch0, ?_, r :: rest, ?_, hvis0⟩)
      · rw [hname]
        exact hdir
      · rw [hname]

mutual
theorem visE (cfg : Config) : ∀ e : FSEntry, pathProp cfg e
  | .file n c o r => by
    intro q
    rw [pruneE, allPathsE]
    simp
  | .dir n ch => by
    intro q
    rw [pruneE, allPathsE, allPathsL_anc]
    simp only [List.mem_map, FSEntry.name]
    constructor
    · rintro ⟨q0, hq0, rfl⟩
      have hvis := (visL_of cfg ch
        (pathPropL_forall cfg (visAllL cfg ch)) q0).mp hq0
      exact ⟨ch, rfl, q0, rfl, hvis⟩
    · rintro ⟨ch0, hdir, q', rfl, hvis⟩
      obtain rfl : ch = ch0 := by injection hdir
      exact ⟨q', (visL_of cfg ch
        (pathPropL_forall cfg (visAllL cfg ch)) q').mpr hvis, rfl⟩
theorem visAllL (cfg : Config) : ∀ ch : List FSEntry, pathPropL cfg ch
  | [] => trivial
  | e :: es => ⟨visE cfg e, visAllL cfg es⟩
end

/-- The paths of the unlimited traversal are exactly the visible
(non-ignored, with non-ignored ancestors) entries. -/
theorem mem_visPaths (cfg : Config) (ch : List FSEntry) (q : List String) :
    q ∈ allPathsL (sortEntries (filterEntries cfg (pruneL cfg ch))) [] ↔
      visible cfg ch q :=
  visL_of cfg ch (pathPropL_forall cfg (visAllL cfg ch)) q

theorem allPathsL_nil_ne_nil (es : List FSEntry) (p : List String)
    (hp : p ∈ allPathsL es []) : p ≠ [] := by
  rw [mem_allPathsL] at hp
  obtain ⟨e, he, h | h⟩ := hp
  · subst h
    simp
  · rw [List.nil_append, allPathsE_anc] at h
    obtain ⟨q, hq, heq⟩ := List.mem_map.mp h
    rw [← heq]
    simp

theorem allPathsE_nil_ne_nil : ∀ (e : FSEntry) (p : List String),
    p ∈ allPathsE e [] → p ≠ []
  | .file _ _ _ _, p, hp => by simp [allPathsE] at hp
  | .dir _ ch, p, hp => allPathsL_nil_ne_nil ch p hp

theorem allPathsE_len (e : FSEntry) (path p : List String)
    (hp : p ∈ allPathsE e path) : path.length < p.length := by
  rw [allPathsE_anc] at hp
  obtain ⟨q, hq, rfl⟩ := List.mem_map.mp hp
  have hne := allPathsE_nil_ne_nil e q hq
  have : 0 < q.length := List.length_pos.mpr hne
  simp
  omega

theorem allPathsL_len (es : List FSEntry) (anc p : List String)
    (hp : p ∈ allPathsL es anc) : anc.length < p.length := by
  rw [allPathsL_anc] at hp
  obtain ⟨q, hq, rfl⟩ := List.mem_map.mp hp
  have hne := allPathsL_nil_ne_nil es q hq
  have : 0 < q.length := List.length_pos.mpr hne
  simp
  omega

mutual
theorem emitE_unlim (cfg : Config) (h : cfg.maxDepth < 0) :
    ∀ (e : FSEntry) (pre : String) (depth : Nat) (path : List String),
    (emitE cfg e pre depth path).map Prod.fst = allPathsE e path
  | .file _ _ _ _, _, _, _ => rfl
  | .dir n ch, pre, depth, path => by
    rw [emitE, allPathsE, if_neg (by omega)]
    exact emitL_unlim cfg h ch pre depth path
theorem emitL_unlim (cfg : Config) (h : cfg.maxDepth < 0) :
    ∀ (es : List FSEntry) (pre : String) (depth : Nat) (anc : List String),
    (emitL cfg es pre depth anc).map Prod.fst = allPathsL es anc
  | [], _, _, _ => rfl
  | e :: rest, pre, depth, anc => by
    rw [emitL, allPathsL]
    simp only [List.map_cons, List.map_append]
    rw [emitE_unlim cfg h, emitL_unlim cfg h]
end

mutual
theorem emitE_depth (cfg : Config) (hmd : 0 ≤ cfg.maxDepth) :
    ∀ (e : FSEntry) (pre : String) (depth : Nat) (path : List String),
    path.length = depth → (depth : Int) ≤ cfg.maxDepth + 1 →
    ∀ p, (p ∈ (emitE cfg e pre depth path).map Prod.fst ↔
      p ∈ allPathsE e path ∧ (p.length : Int) ≤ cfg.maxDepth + 1)
  | .file _ _ _ _, pre, depth, path, hlen, hd, p => by
    simp [emitE, allPathsE]
  | .dir n ch, pre, depth, path, hlen, hd, p => by
    rw [emitE, allPathsE]
    by_cases hguard : cfg.maxDepth ≥ 0 ∧ (depth : Int) > cfg.maxDepth
    · rw [if_pos hguard]
      simp only [List.map_nil, List.not_mem_nil, false_iff]
      rintro ⟨hp, hplen⟩
      have hlt := allPathsL_len ch path p hp
      omega
    · rw [if_neg hguard]
      have hdep : (depth : Int) ≤ cfg.maxDepth := by omega
      exact emitL_depth cfg hmd ch pre depth path hlen hdep p
theorem emitL_depth (cfg : Config) (hmd : 0 ≤ cfg.maxDepth) :
    ∀ (es : List FSEntry) (pre : String) (depth : Nat) (anc : List String),
    anc.length = depth → (depth : Int) ≤ cfg.maxDepth →
    ∀ p, (p ∈ (emitL cfg es pre depth anc).map Prod.fst ↔
      p ∈ allPathsL es anc ∧ (p.length : Int) ≤ cfg.maxDepth + 1)
  | [], _, _, _, _, _, p => by simp [emitL, allPathsL]
  | e :: rest, pre, depth, anc, hlen, hd, p => by
    rw [emitL, allPathsL]
    simp only [List.map_cons, List.mem_cons, List.map_append, List.mem_append]
    rw [emitE_depth cfg hmd e _ (depth + 1) (anc ++ [e.name])
        (by simp [hlen]) (by push_cast; omega) p,
      emitL_depth cfg hmd rest pre depth anc hlen hd p]
    have hanc : ((anc ++ [e.name]).length : Int) ≤ cfg.maxDepth + 1 := by
      push_cast
      simp [hlen]
      omega
    constructor
    · rintro (rfl | h | h)
      · exact ⟨Or.inl rfl, hanc⟩
      · exact ⟨Or.inr (Or.inl h.1), h.2⟩
      · exact ⟨Or.inr (Or.inr h.1), h.2⟩
    · rintro ⟨rfl | h | h, hlen2⟩
      · exact Or.inl rfl
      · exact Or.inr (Or.inl ⟨h, hlen2⟩)
      · exact Or.inr (Or.inr ⟨h, hlen2⟩)
end

/-! ## Distinct names yield distinct visited paths -/

mutual
/-- Names are pairwise distinct at every level below the entry (true on
a real filesystem, where a directory cannot hold two equal names). -/
def nodupB : FSEntry → Bool
  | .file _ _ _ _ => true
  | .dir _ ch => decide ((ch.map FSEntry.name).Nodup) && nodupBL ch
def nodupBL : List FSEntry → Bool
  | [] => true
  | e :: es => nodupB e && nodupBL es
end

theorem nodupBL_iff_forall : ∀ l : List FSEntry,
    nodupBL l = true ↔ ∀ e ∈ l, nodupB e = true
  | [] => by simp [nodupBL]
  | e :: es => by
    rw [nodupBL, Bool.and_eq_true, nodupBL_iff_forall es]
    constructor
    · rintro ⟨h1, h2⟩ x hx
      rcases List.mem_cons.mp hx with rfl | hx
      · exact h1
      · exact h2 x hx
    · intro h
      exact ⟨h e (List.mem_cons_self e es),
        fun x hx => h x (List.mem_cons_of_mem e hx)⟩

theorem allPathsL_head (es : List FSEntry) (p : List String)
    (hp : p ∈ allPathsL es []) : ∃ e ∈ es, ∃ s, p = e.name :: s := by
  rw [mem_allPathsL] at hp
  obtain ⟨e, he, h | h⟩ := hp
  · exact ⟨e, he, [], by simpa using h⟩
  · rw [List.nil_append, allPathsE_anc] at h
    obtain ⟨q, hq, heq⟩ := List.mem_map.mp h
    exact ⟨e, he, q, heq.symm⟩

mutual
theorem nodupPathsE : ∀ e : FSEntry, nodupB e = true → (allPathsE e []).Nodup
  | .file _ _ _ _, _ => by simp [allPathsE]
  | .dir n ch, h => by
    rw [allPathsE]
    rw [nodupB, Bool.and_eq_true, decide_eq_true_eq] at h
    exact nodupPathsL ch h.1 h.2
theorem nodupPathsL : ∀ es : List FSEntry,
    (es.map FSEntry.name).Nodup → nodupBL es = true →
    (allPathsL es []).Nodup
  | [], _, _ => by simp [allPathsL]
  | e :: rest, hn, hb => by
    rw [nodupBL, Bool.and_eq_true] at hb
    rw [List.map_cons, List.nodup_cons] at hn
    rw [allPathsL]
    simp only [List.nil_append]
    rw [List.nodup_cons, List.nodup_append]
    refine ⟨?_, ?_, nodupPathsL rest hn.2 hb.2, ?_⟩
    · intro hmem
      rcases List.mem_append.mp hmem with h | h
      · rw [allPathsE_anc] at h
        obtain ⟨q, hq, heq⟩ := List.mem_map.mp h
        have hqne := allPathsE_nil_ne_nil e q hq
        apply hqne
        have : [e.name] ++ q = [e.name] ++ [] := by simpa using heq
        exact List.append_cancel_left this
      · obtain ⟨e2, he2, s, heq⟩ := allPathsL_head rest _ h
        have : e.name = e2.name ∧ [] = s := by
          have := heq
          simp at this
          exact ⟨this.1, this.2.symm⟩
        exact hn.1 (this.1 ▸ List.mem_map_of_mem FSEntry.name he2)
    · rw [allPathsE_anc]
      refine List.Nodup.map ?_ (nodupPathsE e hb.1)
      intro a b hab
      exact List.append_cancel_left hab
    · intro p hp1 hp2
      rw [allPathsE_anc] at hp1
      obtain ⟨q, hq, heq⟩ := List.mem_map.mp hp1
      obtain ⟨e2, he2, s, heq2⟩ := allPathsL_head rest p hp2
      have hnames : e.name = e2.name := by
        rw [← heq] at heq2
        simp at heq2
        exact heq2.1
      exact hn.1 (hnames ▸ List.mem_map_of_mem FSEntry.name he2)
end

/-- `pruneE` preserves distinctness of names at every level. -/
def pruneNodupProp (cfg : Config) (e : FSEntry) : Prop :=
  nodupB e = true → nodupB (pruneE cfg e) = true

def pruneNodupL (cfg : Config) : List FSEntry → Prop
  | [] => True
  | e :: es => pruneNodupProp cfg e ∧ pruneNodupL cfg es

theorem pruneNodupL_forall (cfg : Config) : ∀ {ch : List FSEntry},
    pruneNodupL cfg ch → ∀ e ∈ ch, pruneNodupProp cfg e
  | [], _, e, he => absurd he (List.not_mem_nil e)
  | e0 :: es, h, e, he => by
    rcases List.mem_cons.mp he with rfl | he2
    · exact h.1
    · exact pruneNodupL_forall cfg h.2 e he2

theorem prunedTop_names_nodup (cfg : Config) (ch : List FSEntry)
    (hn : (ch.map FSEntry.name).Nodup) :
    ((sortEntries (filterEntries cfg (pruneL cfg ch))).map FSEntry.name).Nodup := by
  rw [((sortEntries_perm _).map FSEntry.name).nodup_iff]
  have hsub : (filterEntries cfg (pruneL cfg ch)).map FSEntry.name
      |>.Sublist ((pruneL cfg ch).map FSEntry.name) :=
    (List.filter_sublist _).map FSEntry.name
  refine hsub.nodup ?_
  rw [pruneL_eq_map, List.map_map]
  have : (FSEntry.name ∘ pruneE cfg) = FSEntry.name := by
    funext e
    exact pruneE_name cfg e
  rwa [this]

theorem prunedTop_nodupBL_of (cfg : Config) (ch : List FSEntry)
    (hall : ∀ e ∈ ch, pruneNodupProp cfg e) (hb : nodupBL ch = true) :
    nodupBL (sortEntries (filterEntries cfg (pruneL cfg ch))) = true := by
  rw [nodupBL_iff_forall]
  intro e' he'
  obtain ⟨e, he, _, rfl⟩ := (mem_prunedTop cfg ch e').mp he'
  exact hall e he ((nodupBL_iff_forall ch).mp hb e he)

mutual
theorem nodupB_pruneE (cfg : Config) : ∀ e : FSEntry, pruneNodupProp cfg e
  | .file _ _ _ _ => fun h => h
  | .dir n ch => by
    intro h
    rw [nodupB, Bool.and_eq_true, decide_eq_true_eq] at h
    rw [pruneE, nodupB, Bool.and_eq_true, decide_eq_true_eq]
    exact ⟨prunedTop_names_nodup cfg ch h.1,
      prunedTop_nodupBL_of cfg ch
        (pruneNodupL_forall cfg (nodupB_pruneL cfg ch)) h.2⟩
theorem nodupB_pruneL (cfg : Config) : ∀ ch : List FSEntry, pruneNodupL cfg ch
  | [] => trivial
  | e :: es => ⟨nodupB_pruneE cfg e, nodupB_pruneL cfg es⟩
end

/-- The visited paths of the unlimited traversal have no duplicates when
names are distinct at every level. -/
theorem visPaths_nodup (cfg : Config) (ch : List FSEntry)
    (hn : (ch.map FSEntry.name).Nodup) (hb : nodupBL ch = true) :
    (allPathsL (sortEntries (filterEntries cfg (pruneL cfg ch))) []).Nodup := by
  refine nodupPathsL _ (prunedTop_names_nodup cfg ch hn) ?_
  exact prunedTop_nodupBL_of cfg ch
    (pruneNodupL_forall cfg (nodupB_pruneL cfg ch)) hb

theorem emitE_depth_one (cfg : Config) (h : cfg.maxDepth = 0) :
    ∀ (e : FSEntry) (pre : String) (path : List String),
    emitE cfg e pre 1 path = []
  | .file _ _ _ _, _, _ => rfl
  | .dir _ _, _, _ => by
    rw [emitE, if_pos]
    constructor
    · omega
    · rw [h]
      omega

theorem emitL_md0 (cfg : Config) (h : cfg.maxDepth = 0) :
    ∀ (es : List FSEntry) (pre : String) (anc : List String),
    (emitL cfg es pre 0 anc).map Prod.fst =
      es.map (fun e => anc ++ [e.name])
  | [], _, _ => rfl
  | e :: rest, pre, anc => by
    rw [emitL]
    simp only [List.map_cons, List.map_append]
    rw [emitE_depth_one cfg h, emitL_md0 cfg h rest pre anc]
    simp

theorem entLess_pruneE (cfg : Config) (a b : FSEntry) :
    entLess (pruneE cfg a) (pruneE cfg b) = entLess a b := by
  rw [entLess, entLess, pruneE_name, pruneE_name, pruneE_isDir, pruneE_isDir]

theorem sortEntries_map_pruneE (cfg : Config) (l : List FSEntry) :
    sortEntries (l.map (pruneE cfg)) = (sortEntries l).map (pruneE cfg) := by
  rw [sortEntries, sortEntries]
  refine (List.map_insertionSort entLE entLE (pruneE cfg) l ?_).symm
  intro a _ b _
  rw [entLE, entLE, entLess_pruneE]

theorem filterEntries_map_pruneE (cfg : Config) (l : List FSEntry) :
    filterEntries cfg (l.map (pruneE cfg)) =
      (filterEntries cfg l).map (pruneE cfg) := by
  rw [filterEntries, filterEntries, List.filter_map]
  congr 1
  refine List.filter_congr ?_
  intro e _
  simp only [Function.comp]
  rw [keepEntry_pruneE]

/-- The top level of the pruned, filtered, sorted children carries the
same names, in the same order, as filtering and sorting the original
children directly. -/
theorem prunedTop_names (cfg : Config) (ch : List FSEntry) :
    (sortEntries (filterEntries cfg (pruneL cfg ch))).map FSEntry.name =
      (sortEntries (filterEntries cfg ch)).map FSEntry.name := by
  rw [pruneL_eq_map, filterEntries_map_pruneE, sortEntries_map_pruneE,
    List.map_map]
  congr 1
  funext e
  exact pruneE_name cfg e

theorem keepEntry_setDepth (cfg : Config) (d : Int) (e : FSEntry) :
    keepEntry (setDepth cfg d) e = keepEntry cfg e := rfl

theorem filterEntries_setDepth (cfg : Config) (d : Int) (l : List FSEntry) :
    filterEntries (setDepth cfg d) l = filterEntries cfg l := rfl

mutual
theorem pruneE_setDepth (cfg : Config) (d : Int) :
    ∀ e : FSEntry, pruneE (setDepth cfg d) e = pruneE cfg e
  | .file _ _ _ _ => rfl
  | .dir n ch => by
    rw [pruneE, pruneE, pruneL_setDepth cfg d ch, filterEntries_setDepth]
theorem pruneL_setDepth (cfg : Config) (d : Int) :
    ∀ ch : List FSEntry, pruneL (setDepth cfg d) ch = pruneL cfg ch
  | [] => rfl
  | e :: es => by
    rw [pruneL, pruneL, pruneE_setDepth cfg d e, pruneL_setDepth cfg d es]
end

/-- C3: depth semantics of `writeTree`.  (a) With `maxDepth = -1` the
traversal is unlimited: a path is visited iff it is visible (each of its
components survives the ignore/hidden/files filter), and when sibling
names are distinct at every level each entry is visited exactly once.
(b) With `maxDepth = 0` the traversal emits exactly the root's immediate
filtered, sorted children.  (c) In general, with `maxDepth ≥ 0`, a path
is visited iff the unlimited traversal visits it and its length is at
most `maxDepth + 1` — i.e. the cutoff `maxDepth >= 0 && depth > maxDepth`
shows entries at depth `maxDepth` (path length `maxDepth + 1`, depth 0
being the root's direct children) and hides deeper ones. -/
theorem C3_depth_semantics (cfg : Config) (ch : List FSEntry) :
    (cfg.maxDepth = -1 →
      (∀ p, p ∈ treeVisits cfg ch ↔ visible cfg ch p) ∧
      ((ch.map FSEntry.name).Nodup → nodupBL ch = true →
        (treeVisits cfg ch).Nodup)) ∧
    (cfg.maxDepth = 0 →
      treeVisits cfg ch =
        (sortEntries (filterEntries cfg ch)).map (fun e => [e.name])) ∧
    (0 ≤ cfg.maxDepth → ∀ p,
      (p ∈ treeVisits cfg ch ↔
        p ∈ treeVisits (setDepth cfg (-1)) ch ∧
          (p.length : Int) ≤ cfg.maxDepth + 1)) := by
  have hmap : ∀ l : List FSEntry,
      l.map (fun e => [e.name]) = (l.map FSEntry.name).map (fun n => [n]) := by
    intro l
    rw [List.map_map]
    rfl
  refine ⟨?_, ?_, ?_⟩
  · intro h
    have hvis : treeVisits cfg ch =
        allPathsL (sortEntries (filterEntries cfg (pruneL cfg ch))) [] := by
      rw [treeVisits, writeTreePairs, if_neg (by omega)]
      exact emitL_unlim cfg (by omega) _ _ _ _
    refine ⟨?_, ?_⟩
    · intro p
      rw [hvis]
      exact mem_visPaths cfg ch p
    · intro hn hb
      rw [hvis]
      exact visPaths_nodup cfg ch hn hb
  · intro h
    rw [treeVisits, writeTreePairs, if_neg (by omega), emitL_md0 cfg h]
    simp only [List.nil_append]
    rw [hmap, hmap, prunedTop_names]
  · intro h p
    have hsd : (setDepth cfg (-1)).maxDepth = -1 := rfl
    have h2 : treeVisits (setDepth cfg (-1)) ch =
        allPathsL (sortEntries (filterEntries cfg (pruneL cfg ch))) [] := by
      rw [treeVisits, writeTreePairs, if_neg (by rw [hsd]; omega)]
      rw [emitL_unlim (setDepth cfg (-1)) (by rw [hsd]; omega),
        filterEntries_setDepth, pruneL_setDepth]
    rw [treeVisits, writeTreePairs, if_neg (by omega), h2]
    exact emitL_depth cfg h _ "" 0 [] rfl (by omega) p

def cfgNeg : Config := Config.mk true true "README.md" [] (-1) false "."

def cfgZero : Config := Config.mk true true "README.md" [] 0 false "."

def cfgOne : Config := Config.mk true true "README.md" [] 1 false "."

def chW : List FSEntry :=
  [FSEntry.dir "src" [FSEntry.file "a.go" "" true none],
   FSEntry.file "b.md" "" true none]

/-! ## The content walk of `writeFileContents`

`filepath.WalkDir` visits the directory itself first, then its entries in
lexical (byte-wise) name order.  For a visited path whose relative form
has `k + 1` components the code computes `currentDepth = k`, so an entry
under ancestor path `anc` has depth `anc.length`.  Beyond the depth limit
a directory is `SkipDir`red and a file skipped; directories are otherwise
only recursed into (the ignore and hidden filters apply to files alone).
As with the tree renderer, the walk is modelled in two phases so it stays
structural: `swL` sorts every directory's children by name, then `cwL`
walks the sorted tree. -/

/-- Lexical name order of `os.ReadDir`, as the sort relation. -/
def nameLE (a b : FSEntry) : Prop := goStrLt b.name a.name = false

instance : DecidableRel nameLE := fun _ _ => instDecidableEqBool _ _

/-- One directory's entries in the order `WalkDir` reads them. -/
def sortWalk (l : List FSEntry) : List FSEntry := l.insertionSort nameLE

mutual
/-- Sort every directory's children by name (phase one of the walk). -/
def swE : FSEntry → FSEntry
  | .file n c ok r => .file n c ok r
  | .dir n ch => .dir n (sortWalk (swL ch))
def swL : List FSEntry → List FSEntry
  | [] => []
  | e :: es => swE e :: swL es
end

/-- `filepath.Rel(dir, path)` for a file below `dir`: the components
joined with `/`. -/
def joinPath : List String → String
  | [] => ""
  | [p] => p
  | p :: q :: rest => p ++ "/" ++ joinPath (q :: rest)

/-- The section `writeFileContents` prints for one non-skipped file:
the four `Fprintf` shapes of `main.go` lines 335–358, selected in the
source's order (size check, then text check, then the read). -/
def renderFileSection (rel name content : String) (ok : Bool)
    (rerr : Option String) : String :=
  if (goBytes content).length > 1024 * 1024 then
    "### 📄 " ++ rel ++ "\n\n*File too large to display (" ++
      formatFileSize (goBytes content).length ++ ")*\n\n"
  else if isTextFile ok content = false then
    "### 📄 " ++ rel ++ "\n\n*Binary file (" ++
      formatFileSize (goBytes content).length ++ ")*\n\n"
  else
    match rerr with
    | some msg =>
      "### 📄 " ++ rel ++ "\n\n*Error reading file: " ++ msg ++ "*\n\n"
    | none =>
      "### 📄 " ++ rel ++ "\n\n" ++
        "*Size: " ++ formatFileSize (goBytes content).length ++
        " | Language: " ++ getLanguageFromExtension (goToLower (goExt name)) ++
        "*\n\n" ++
        "```" ++ getLanguageFromExtension (goToLower (goExt name)) ++ "\n" ++
        content ++ "\n```\n\n"

mutual
/-- The `WalkDir` callback on one (already name-sorted) entry: the
emitted `(path, printed section)` pairs. -/
def cwE (cfg : Config) : FSEntry → List String → List (List String × String)
  | .file n c ok r, anc =>
    if cfg.maxDepth ≥ 0 ∧ (anc.length : Int) > cfg.maxDepth then []
    else if shouldIgnore n cfg.ignorePatterns then []
    else if !cfg.showHidden && (n.data.head? == some '.') then []
    else [(anc ++ [n],
      renderFileSection (joinPath (anc ++ [n])) n c ok r)]
  | .dir n ch, anc =>
    if cfg.maxDepth ≥ 0 ∧ (anc.length : Int) > cfg.maxDepth then []
    else cwL cfg ch (anc ++ [n])
/-- The walk over a (already name-sorted) forest under ancestor `anc`. -/
def cwL (cfg : Config) : List FSEntry → List String → List (List String × String)
  | [], _ => []
  | e :: es, anc => cwE cfg e anc ++ cwL cfg es anc
end

/-- `writeFileContents(file, dir, config, 0)`: the visited root is a
directory and never printed; its children are walked in name order. -/
def contentWalk (cfg : Config) (rootChildren : List FSEntry) :
    List (List String × String) :=
  if cfg.maxDepth ≥ 0 ∧ (0 : Int) > cfg.maxDepth then []
  else cwL cfg (sortWalk (swL rootChildren)) []

theorem C3_depth_semantics_witness :
    ((["src"] ∈ treeVisits cfgNeg chW ↔ visible cfgNeg chW ["src"]) ∧
      (treeVisits cfgNeg chW).Nodup) ∧
    treeVisits cfgZero chW =
      (sortEntries (filterEntries cfgZero chW)).map (fun e => [e.name]) ∧
    (["src", "a.go"] ∈ treeVisits cfgOne chW ↔
      ["src", "a.go"] ∈ treeVisits (setDepth cfgOne (-1)) chW ∧
        ((["src", "a.go"] : List String).length : Int) ≤ cfgOne.maxDepth + 1) := by
  refine ⟨⟨?_, ?_⟩, ?_, ?_⟩
  · exact ((C3_depth_semantics cfgNeg chW).1 (by decide)).1 ["src"]
  · exact ((C3_depth_semantics cfgNeg chW).1 (by decide)).2 (by decide) (by decide)
  · exact (C3_depth_semantics cfgZero chW).2.1 (by decide)
  · exact (C3_depth_semantics cfgOne chW).2.2 (by decide) ["src", "a.go"]

/-- C4: per-file soft errors during content rendering.  For every file
the walk reaches (within depth, not ignored, not hidden): an over-1-MiB
file, a binary-classified file, and a file whose read fails each emit
exactly one inline placeholder section — naming the size, `Binary file`,
or the read error respectively — in place of the content; and the walk
never aborts: the forest's output is the independent concatenation of
each entry's output, and which path a file contributes does not depend
on its content, openability or read error. -/
theorem C4_soft_errors (cfg : Config) (anc : List String) (n c : String)
    (ok : Bool) (rerr : Option String)
    (helig : ¬(cfg.maxDepth ≥ 0 ∧ (anc.length : Int) > cfg.maxDepth) ∧
      shouldIgnore n cfg.ignorePatterns = false ∧
      (!cfg.showHidden && (n.data.head? == some '.')) = false) :
    ((goBytes c).length > 1024 * 1024 →
      cwE cfg (.file n c ok rerr) anc = [(anc ++ [n],
        "### 📄 " ++ joinPath (anc ++ [n]) ++
          "\n\n*File too large to display (" ++
          formatFileSize (goBytes c).length ++ ")*\n\n")]) ∧
    ((goBytes c).length ≤ 1024 * 1024 → isTextFile ok c = false →
      cwE cfg (.file n c ok rerr) anc = [(anc ++ [n],
        "### 📄 " ++ joinPath (anc ++ [n]) ++
          "\n\n*Binary file (" ++
          formatFileSize (goBytes c).length ++ ")*\n\n")]) ∧
    ((goBytes c).length ≤ 1024 * 1024 → isTextFile ok c = true →
      ∀ msg, rerr = some msg →
      cwE cfg (.file n c ok rerr) anc = [(anc ++ [n],
        "### 📄 " ++ joinPath (anc ++ [n]) ++
          "\n\n*Error reading file: " ++ msg ++ "*\n\n")]) ∧
    ((cwE cfg (.file n c ok rerr) anc).map Prod.fst = [anc ++ [n]]) ∧
    (∀ (es : List FSEntry) (anc2 : List String),
      cwL cfg es anc2 = es.flatMap (fun e => cwE cfg e anc2)) := by
  obtain ⟨hd, hig, hhid⟩ := helig
  have hfile : cwE cfg (.file n c ok rerr) anc = [(anc ++ [n],
      renderFileSection (joinPath (anc ++ [n])) n c ok rerr)] := by
    rw [cwE, if_neg hd, if_neg (by rw [hig]; exact Bool.false_ne_true),
      if_neg (by rw [hhid]; exact Bool.false_ne_true)]
  refine ⟨?_, ?_, ?_, ?_, ?_⟩
  · intro hsize
    rw [hfile, renderFileSection.eq_def, if_pos hsize]
  · intro hsize hbin
    rw [hfile, renderFileSection.eq_def, if_neg (by omega), if_pos hbin]
  · intro hsize htext msg hmsg
    subst hmsg
    rw [hfile, renderFileSection.eq_def, if_neg (by omega),
      if_neg (by simp [htext])]
  · rw [hfile]
    rfl
  · intro es
    induction es with
    | nil => intro anc2; rw [cwL]; rfl
    | cons e rest ih =>
      intro anc2
      rw [cwL, List.flatMap_cons, ih anc2]

def fBig : FSEntry := FSEntry.file "data.bin" "x" false none

theorem C4_soft_errors_witness :
    (¬(cfgNeg.maxDepth ≥ 0 ∧ ((([] : List String)).length : Int) > cfgNeg.maxDepth) ∧
      shouldIgnore "data.bin" cfgNeg.ignorePatterns = false ∧
      (!cfgNeg.showHidden && ("data.bin".data.head? == some '.')) = false) ∧
    cwE cfgNeg fBig [] = [((([] : List String) ++ ["data.bin"]),
      "### 📄 " ++ joinPath (([] : List String) ++ ["data.bin"]) ++
        "\n\n*Binary file (" ++ formatFileSize (goBytes "x").length ++ ")*\n\n")] :=
  ⟨by decide,
    (C4_soft_errors cfgNeg [] "data.bin" "x" false none
      (by decide)).2.1 (by decide) (by decide)⟩

/-! ## Project statistics (`writeProjectInfo`) and `init`
(`createIgnoreFile`) -/

mutual
/-- `(files, directories)` counted below one entry, the entry included —
the unfiltered `WalkDir` of `writeProjectInfo` visits every entry. -/
def countE : FSEntry → Nat × Nat
  | .file _ _ _ _ => (1, 0)
  | .dir _ ch => ((countL ch).1, (countL ch).2 + 1)
def countL : List FSEntry → Nat × Nat
  | [] => (0, 0)
  | e :: es => ((countE e).1 + (countL es).1, (countE e).2 + (countL es).2)
end

mutual
/-- Every entry of the tree below one entry, the entry included. -/
def allEntriesE : FSEntry → List FSEntry
  | .file n c ok r => [.file n c ok r]
  | .dir n ch => .dir n ch :: allEntriesL ch
def allEntriesL : List FSEntry → List FSEntry
  | [] => []
  | e :: es => allEntriesE e ++ allEntriesL es
end

/-- `writeProjectInfo` from `main.go`: one unfiltered walk (the root
directory itself is also visited, hence `+ 1` on the directory count),
then the overview lines; the printed directory count subtracts the
root.  It takes no `Config`: no ignore pattern, hidden rule or depth
limit enters. -/
def writeProjectInfo (dir : String) (rootChildren : List FSEntry) :
    List String :=
  ["## 📊 Project Overview\n\n",
   "- **Total Files:** " ++ toString (countL rootChildren).1 ++ "\n",
   "- **Total Directories:** " ++
     toString ((countL rootChildren).2 + 1 - 1) ++ "\n",
   "- **Project Root:** `" ++ dir ++ "`\n\n"]

mutual
theorem countE_spec : ∀ e : FSEntry,
    countE e = ((allEntriesE e).countP (fun x => !x.isDir),
      (allEntriesE e).countP (fun x => x.isDir))
  | .file _ _ _ _ => rfl
  | .dir n ch => by
    rw [countE, allEntriesE, countL_spec ch]
    simp [List.countP_cons, FSEntry.isDir]
theorem countL_spec : ∀ l : List FSEntry,
    countL l = ((allEntriesL l).countP (fun x => !x.isDir),
      (allEntriesL l).countP (fun x => x.isDir))
  | [] => rfl
  | e :: es => by
    rw [countL, allEntriesL, countE_spec e, countL_spec es]
    simp [List.countP_append]
end

/-- The `init` subcommand's world: whether `.foldermd.ignore` exists
(and with what content), and whether a write would succeed. -/
structure InitFS where
  ignoreFile : Option String
  writeOk : Bool

def ignoreFileName : String := ".foldermd.ignore"

/-- The default pattern file `createIgnoreFile` writes. -/
def defaultIgnoreContent : String :=
  "# foldermd ignore patterns\n# Lines starting with # are comments\n# Use glob patterns to match files and directories\n\n# Version control\n.git\n.svn\n.hg\n\n# Dependencies\nnode_modules\nvendor\n__pycache__\n.venv\nvenv\n\n# Build outputs\nbuild\ndist\nout\ntarget\nbin\nobj\n\n# IDE and editor files\n.vscode\n.idea\n*.swp\n*.swo\n*~\n\n# OS generated files\n.DS_Store\nThumbs.db\nDesktop.ini\n\n# Logs\n*.log\nlogs\n\n# Temporary files\ntmp\ntemp\n*.tmp\n*.temp\n\n# Archives\n*.zip\n*.tar.gz\n*.rar\n*.7z"

/-- `createIgnoreFile` from `main.go`: `os.Stat` success (the file
exists) returns the already-exists error before any write; otherwise the
default content is written (a failing write reports an error and changes
nothing). Returns `(error message?, resulting filesystem)`. -/
def createIgnoreFile (fs : InitFS) : Option String × InitFS :=
  match fs.ignoreFile with
  | some c =>
    (some ("file " ++ ignoreFileName ++ " already exists"),
      InitFS.mk (some c) fs.writeOk)
  | none =>
    if fs.writeOk then
      (none, InitFS.mk (some defaultIgnoreContent) fs.writeOk)
    else
      (some ("failed to create " ++ ignoreFileName),
        InitFS.mk none fs.writeOk)

/-- `main`: a returned error exits with status 1, otherwise 0. -/
def initExitCode (fs : InitFS) : Nat :=
  match (createIgnoreFile fs).1 with
  | some _ => 1
  | none => 0

/-- C8: when `.foldermd.ignore` already exists, `init` returns the
already-exists error, the process exits with status 1, and the
filesystem — in particular the existing file's content — is unchanged
(the function returns before any write). -/
theorem C8_init_exists (fs : InitFS) (c : String)
    (h : fs.ignoreFile = some c) :
    (createIgnoreFile fs).1 =
      some ("file " ++ ignoreFileName ++ " already exists") ∧
    initExitCode fs = 1 ∧
    (createIgnoreFile fs).2 = fs ∧
    (createIgnoreFile fs).2.ignoreFile = some c := by
  obtain ⟨f, w⟩ := fs
  simp only [Option.some.injEq] at h
  subst h
  exact ⟨rfl, rfl, rfl, rfl⟩

theorem C8_init_exists_witness :
    (InitFS.mk (some "node_modules\n") true).ignoreFile =
      some "node_modules\n" ∧
    (createIgnoreFile (InitFS.mk (some "node_modules\n") true)).1 =
      some ("file " ++ ignoreFileName ++ " already exists") ∧
    initExitCode (InitFS.mk (some "node_modules\n") true) = 1 ∧
    (createIgnoreFile (InitFS.mk (some "node_modules\n") true)).2 =
      InitFS.mk (some "node_modules\n") true ∧
    (createIgnoreFile (InitFS.mk (some "node_modules\n") true)).2.ignoreFile =
      some "node_modules\n" :=
  ⟨rfl, C8_init_exists (InitFS.mk (some "node_modules\n") true)
    "node_modules\n" rfl⟩

/-- C7: the project statistics come from one walk with no filters — no
configuration enters — whose counts are exactly the number of file
entries and of directory entries anywhere in the tree; the printed
directory total excludes the root (the walk's `dirCount` includes it and
one is subtracted). -/
theorem C7_stats_unfiltered (dir : String) (ch : List FSEntry) :
    writeProjectInfo dir ch =
      ["## 📊 Project Overview\n\n",
       "- **Total Files:** " ++
         toString ((allEntriesL ch).countP (fun x => !x.isDir)) ++ "\n",
       "- **Total Directories:** " ++
         toString ((allEntriesL ch).countP (fun x => x.isDir)) ++ "\n",
       "- **Project Root:** `" ++ dir ++ "`\n\n"] := by
  rw [writeProjectInfo, countL_spec ch]
  simp

/-- C9: an empty file is classified non-text — `isTextFile` treats its
zero-length first read as a failure — so in content mode it renders as a
binary-file placeholder (with size `0 B`), never as an empty fenced
block. -/
theorem C9_empty_file_binary (ok : Bool) (rel name : String)
    (rerr : Option String) :
    isTextFile ok "" = false ∧
    renderFileSection rel name "" ok rerr =
      "### 📄 " ++ rel ++ "\n\n*Binary file (" ++ "0 B" ++ ")*\n\n" := by
  have hb : goBytes "" = [] := rfl
  have ht : isTextFile ok "" = false := by
    rw [isTextFile]
    cases ok <;> simp [hb]
  refine ⟨ht, ?_⟩
  rw [renderFileSection.eq_def, if_neg (by rw [hb]; simp), if_pos ht, hb]
  have hfs : formatFileSize ([] : List Nat).length = "0 B" := rfl
  rw [hfs]

/-! ## The generated document (`generateReadme`), for C1

The document is modelled as the list of strings the successive
`Fprintf` calls write, concatenated.  Terminal output (`Printf`) is not
part of the document.  `cwd` is the working directory (used for the
project name when the target is `.`), `now` the formatted timestamp, and
`ignFile` the content of `<target>/.foldermd.ignore` when both `Stat`
and `readIgnoreFile` succeed on it. -/

def strJoin : List String → String
  | [] => ""
  | s :: rest => s ++ strJoin rest

/-- Go `strings.Join`. -/
def goStringsJoin (sepStr : String) : List String → String
  | [] => ""
  | [p] => p
  | p :: q :: rest => p ++ sepStr ++ goStringsJoin sepStr (q :: rest)

/-- Go `%t`. -/
def goBool (b : Bool) : String := if b then "true" else "false"

/-- Go `filepath.Base` (Unix): empty path gives `.`, trailing slashes
are dropped, all-slash paths give `/`, else the part after the last
slash. -/
def goBase (s : String) : String :=
  if s = "" then "."
  else if (s.data.reverse.dropWhile (fun c => c == '/')).isEmpty then "/"
  else ⟨((s.data.reverse.dropWhile (fun c => c == '/')).takeWhile
    (fun c => !(c == '/'))).reverse⟩

/-- `bufio.Scanner` line splitting: lines end at `\n`, a last line
without newline still counts, no line after a final newline. -/
def splitNLAux : List Char → List Char → List (List Char)
  | [], acc => if acc.isEmpty then [] else [acc.reverse]
  | c :: rest, acc =>
    if c = '\n' then acc.reverse :: splitNLAux rest []
    else splitNLAux rest (c :: acc)

/-- `ScanLines` also strips one trailing `\r`. -/
def dropCR (l : List Char) : List Char :=
  if l.getLast? = some '\x0d' then l.dropLast else l

/-- `readIgnoreFile`: trimmed lines, dropping empties and `#` comments. -/
def parseIgnoreContent (s : String) : List String :=
  ((splitNLAux s.data []).map (fun l => goTrim ⟨dropCR l⟩)).filter
    (fun t => !(t == "") && !(t.data.head? == some '#'))

/-- The patterns after the optional `.foldermd.ignore` merge. -/
def mergedPatterns (cfg : Config) (ignFile : Option String) : List String :=
  match ignFile with
  | some content => cfg.ignorePatterns ++ parseIgnoreContent content
  | none => cfg.ignorePatterns

def mergeConfig (cfg : Config) (ignFile : Option String) : Config :=
  Config.mk cfg.includeFiles cfg.includeContent cfg.outputFile
    (mergedPatterns cfg ignFile) cfg.maxDepth cfg.showHidden cfg.targetDir

def projectNameOf (cfg : Config) (cwd : String) : String :=
  if goBase cfg.targetDir = "." then goBase cwd else goBase cfg.targetDir

def headerChunks (cfg : Config) (cwd now : String) : List String :=
  ["# " ++ projectNameOf cfg cwd ++ "\n\n",
   "> Generated with [foldermd](https://github.com/yourusername/foldermd) on "
     ++ now ++ "\n\n"]

def legendChunks (cfg : Config) : List String :=
  if cfg.includeFiles then
    ["```\n", "Legend: 📁 Directory | 📄 File\n", "```\n\n"]
  else []

def treeChunks (cfg : Config) (root : List FSEntry) : List String :=
  ["```\n"] ++ (treeLines cfg root).map (fun l => l ++ "\n") ++ ["```\n\n"]

def contentChunks (cfg : Config) (root : List FSEntry) : List String :=
  if cfg.includeContent then
    "## 📄 File Contents\n\n" :: (contentWalk cfg root).map Prod.snd
  else []

def footerChunks (cfg : Config) : List String :=
  ["---\n\n",
   "## 🛠️ Generated with foldermd\n\n",
   "**Configuration used:**\n",
   "- Include files: `" ++ goBool cfg.includeFiles ++ "`\n",
   "- Include content: `" ++ goBool cfg.includeContent ++ "`\n",
   "- Max depth: `" ++ toString cfg.maxDepth ++ "`\n",
   "- Show hidden: `" ++ goBool cfg.showHidden ++ "`\n",
   "- Ignore patterns: `" ++ goStringsJoin ", " cfg.ignorePatterns ++ "`\n",
   "\n*This README was automatically generated. Consider customizing it for your project!*\n"]

/-- The successive writes of `generateReadme` (the filter/footer
configuration is the one after the ignore-file merge). -/
def generateReadmeChunks (cfg : Config) (cwd now : String)
    (ignFile : Option String) (root : List FSEntry) : List String :=
  headerChunks cfg cwd now ++
  writeProjectInfo cfg.targetDir root ++
  ["## 📁 Project Structure\n\n"] ++
  legendChunks (mergeConfig cfg ignFile) ++
  treeChunks (mergeConfig cfg ignFile) root ++
  contentChunks (mergeConfig cfg ignFile) root ++
  footerChunks (mergeConfig cfg ignFile)

def generateReadmeDoc (cfg : Config) (cwd now : String)
    (ignFile : Option String) (root : List FSEntry) : String :=
  strJoin (generateReadmeChunks cfg cwd now ignFile root)

/-! ## Fenced-block well-formedness -/

/-- The backtick character. -/
def btick : Char := "`".data.headI

/-- A line that opens a fenced code block (a backtick fence, info string
allowed). -/
def isFenceLine (l : List Char) : Bool := "```".data.isPrefixOf l

/-- A line that closes an open backtick block: at least three backticks
and nothing else. -/
def isCloseFence (l : List Char) : Bool :=
  decide (l.length ≥ 3) && l.all (fun c => c == btick)

/-- Scan the lines: outside a block a fence line opens one, inside a
block only a closing fence ends it.  Returns the final in-block state. -/
def fenceFold : List (List Char) → Bool → Bool
  | [], st => st
  | l :: rest, false => fenceFold rest (isFenceLine l)
  | l :: rest, true => fenceFold rest (!(isCloseFence l))

/-- Every opened fenced block of the document is closed again. -/
def wellFormedFences (doc : String) : Bool :=
  !(fenceFold (splitNLAux doc.data []) false)

/-- No newline among the characters. -/
def noNLc (l : List Char) : Bool := l.all (fun c => !(c == '\n'))

/-- No newline in the string. -/
def noNL (s : String) : Bool := noNLc s.data

/-- The fence state over the lines of a character stream. -/
def docFold (l : List Char) (st : Bool) : Bool :=
  fenceFold (splitNLAux l []) st

theorem noNLc_append (a b : List Char) :
    noNLc (a ++ b) = (noNLc a && noNLc b) := by
  simp [noNLc, List.all_append]

theorem splitNLAux_line : ∀ (a : List Char), noNLc a = true →
    ∀ (b acc : List Char),
    splitNLAux (a ++ '\n' :: b) acc = (acc.reverse ++ a) :: splitNLAux b []
  | [], _, b, acc => by simp [splitNLAux]
  | c :: a, h, b, acc => by
    have hc : ¬ c = '\n' := by
      simp [noNLc] at h
      exact h.1
    have ha : noNLc a = true := by
      simp [noNLc] at h ⊢
      exact h.2
    rw [List.cons_append, splitNLAux, if_neg hc, splitNLAux_line a ha b (c :: acc)]
    simp

theorem splitNLAux_append_nl : ∀ (a : List Char) (b acc : List Char),
    splitNLAux (a ++ '\n' :: b) acc =
      splitNLAux (a ++ ['\n']) acc ++ splitNLAux b []
  | [], b, acc => by simp [splitNLAux]
  | c :: a, b, acc => by
    by_cases hc : c = '\n'
    · subst hc
      rw [List.cons_append, splitNLAux, if_pos rfl, List.cons_append,
        splitNLAux, if_pos rfl, splitNLAux_append_nl a b []]
      simp
    · rw [List.cons_append, splitNLAux, if_neg hc, List.cons_append,
        splitNLAux, if_neg hc, splitNLAux_append_nl a b (c :: acc)]

theorem fenceFold_append : ∀ (L1 L2 : List (List Char)) (st : Bool),
    fenceFold (L1 ++ L2) st = fenceFold L2 (fenceFold L1 st)
  | [], _, _ => rfl
  | l :: L1, L2, st => by
    cases st
    · rw [List.cons_append, fenceFold, fenceFold, fenceFold_append L1 L2]
    · rw [List.cons_append, fenceFold, fenceFold, fenceFold_append L1 L2]

theorem isFenceLine_head {l : List Char} (h : isFenceLine l = true) :
    l.head? = some btick := by
  cases l with
  | nil => exact absurd h (by decide)
  | cons c rest =>
    have hpre : "```".data.isPrefixOf (c :: rest) = true := h
    have h3 : "```".data = btick :: [btick, btick] := rfl
    rw [h3, List.isPrefixOf, Bool.and_eq_true] at hpre
    have : c = btick := by
      have := hpre.1
      simp at this
      exact this.symm
    rw [List.head?, this]

theorem isCloseFence_head {l : List Char} (h : isCloseFence l = true) :
    l.head? = some btick := by
  cases l with
  | nil => exact absurd h (by decide)
  | cons c rest =>
    rw [isCloseFence, Bool.and_eq_true] at h
    have := h.2
    rw [List.all_cons, Bool.and_eq_true] at this
    have hc : c = btick := by
      have := this.1
      simp at this
      exact this
    rw [List.head?, hc]

theorem fenceFold_inert : ∀ (L : List (List Char)),
    (∀ l ∈ L, (l.head? == some btick) = false) →
    ∀ st, fenceFold L st = st
  | [], _, _ => rfl
  | l :: L, h, st => by
    have hl : (l.head? == some btick) = false := h l (List.mem_cons_self l L)
    have hF : isFenceLine l = false := by
      cases hiF : isFenceLine l
      · rfl
      · rw [isFenceLine_head hiF] at hl
        simp at hl
    have hC : isCloseFence l = false := by
      cases hiC : isCloseFence l
      · rfl
      · rw [isCloseFence_head hiC] at hl
        simp at hl
    have hrest : ∀ x ∈ L, (x.head? == some btick) = false :=
      fun x hx => h x (List.mem_cons_of_mem l hx)
    cases st
    · rw [fenceFold, hF, fenceFold_inert L hrest]
    · rw [fenceFold, hC, Bool.not_false, fenceFold_inert L hrest]

theorem fenceFold_notClose : ∀ (L : List (List Char)),
    (∀ l ∈ L, isCloseFence l = false) → fenceFold L true = true
  | [], _ => rfl
  | l :: L, h => by
    rw [fenceFold, h l (List.mem_cons_self l L), Bool.not_false,
      fenceFold_notClose L (fun x hx => h x (List.mem_cons_of_mem l hx))]

theorem docFold_line (a : List Char) (ha : noNLc a = true)
    (hh : (a.head? == some btick) = false) (b : List Char) (st : Bool) :
    docFold (a ++ '\n' :: b) st = docFold b st := by
  rw [docFold, splitNLAux_line a ha b [], docFold]
  have h1 : ∀ l ∈ [List.reverse [] ++ a], (l.head? == some btick) = false := by
    intro l hl
    simp at hl
    subst hl
    simpa using hh
  have := fenceFold_append [List.reverse [] ++ a] (splitNLAux b []) st
  simp only [List.singleton_append] at this
  rw [this, fenceFold_inert _ h1]

theorem docFold_blank (b : List Char) (st : Bool) :
    docFold ('\n' :: b) st = docFold b st := by
  have := docFold_line [] (by decide) (by decide) b st
  simpa using this

theorem docFold_openFence (lang b : List Char) (hl : noNLc lang = true) :
    docFold (("```".data ++ lang) ++ '\n' :: b) false = docFold b true := by
  have ha : noNLc ("```".data ++ lang) = true := by
    rw [noNLc_append, hl]
    decide
  rw [docFold, splitNLAux_line _ ha b [], docFold]
  have := fenceFold_append [List.reverse [] ++ ("```".data ++ lang)]
    (splitNLAux b []) false
  simp only [List.singleton_append] at this
  rw [this]
  have hop : isFenceLine (List.reverse [] ++ ("```".data ++ lang)) = true := by
    simp only [List.reverse_nil, List.nil_append]
    rw [isFenceLine]
    exact List.isPrefixOf_iff_prefix.mpr (List.prefix_append _ _)
  rw [fenceFold, hop]
  rfl

theorem docFold_closeFence (b : List Char) :
    docFold ("```".data ++ '\n' :: b) true = docFold b false := by
  rw [docFold, splitNLAux_line _ (by decide) b [], docFold]
  have := fenceFold_append [List.reverse [] ++ "```".data]
    (splitNLAux b []) true
  simp only [List.singleton_append] at this
  rw [this]
  have hcl : isCloseFence (List.reverse [] ++ "```".data) = true := by decide
  rw [fenceFold, hcl]
  rfl

theorem docFold_content (c b : List Char)
    (h : (splitNLAux (c ++ ['\n']) []).all (fun l => !(isCloseFence l)) = true) :
    docFold (c ++ '\n' :: b) true = docFold b true := by
  rw [docFold, splitNLAux_append_nl c b [], docFold, fenceFold_append]
  congr 1
  refine fenceFold_notClose _ ?_
  intro l hl
  rw [List.all_eq_true] at h
  have := h l hl
  simpa using this

theorem strJoin_data : ∀ (cs : List String),
    (strJoin cs).data = (cs.map String.data).flatten
  | [] => rfl
  | c :: cs => by
    rw [strJoin, List.map_cons, List.flatten_cons, ← strJoin_data cs]
    exact String.data_append c (strJoin cs)

/-! ## The injected strings contain no newline -/

theorem digitChar_ne_nl (n : Nat) : (Nat.digitChar n == '\n') = false := by
  rcases Nat.lt_or_ge n 16 with h | h
  · interval_cases n <;> decide
  · rw [Nat.digitChar]
    repeat rw [if_neg (by omega)]
    decide

theorem toDigitsCore_noNL : ∀ (fuel n : Nat) (ds : List Char),
    noNLc ds = true → noNLc (Nat.toDigitsCore 10 fuel n ds) = true
  | 0, _, _, h => h
  | fuel + 1, n, ds, h => by
    rw [Nat.toDigitsCore]
    have hd : noNLc (Nat.digitChar (n % 10) :: ds) = true := by
      rw [noNLc, List.all_cons, digitChar_ne_nl, Bool.not_false, Bool.true_and]
      rw [noNLc] at h
      exact h
    split
    · exact hd
    · exact toDigitsCore_noNL fuel (n / 10) _ hd

theorem noNL_natRepr (n : Nat) : noNL (Nat.repr n) = true :=
  toDigitsCore_noNL (n + 1) n [] rfl

theorem noNL_natToString (n : Nat) : noNL (toString n) = true :=
  noNL_natRepr n

theorem noNL_intToString (i : Int) : noNL (toString i) = true := by
  cases i with
  | ofNat m => exact noNL_natRepr m
  | negSucc m =>
    have : toString (Int.negSucc m) = "-" ++ Nat.repr (m + 1) := rfl
    rw [this, noNL, String.data_append, noNLc_append]
    have h2 := noNL_natRepr (m + 1)
    rw [noNL] at h2
    rw [h2]
    decide

theorem noNLc_of_subset {a b : List Char} (hsub : a ⊆ b)
    (hb : noNLc b = true) : noNLc a = true := by
  rw [noNLc, List.all_eq_true] at hb ⊢
  exact fun c hc => hb c (hsub hc)

theorem noNLc_reverse (l : List Char) : noNLc l.reverse = noNLc l := by
  simp [noNLc]

theorem noNL_append (a b : String) :
    noNL (a ++ b) = (noNL a && noNL b) := by
  rw [noNL, String.data_append, noNLc_append]
  rfl

theorem noNL_formatFileSize (n : Nat) : noNL (formatFileSize n) = true := by
  rw [formatFileSize]
  split
  · rw [noNL_append, noNL_natToString]
    decide
  · have hc : noNL (String.mk ["KMGTPE".data.getD
        (sizeLoop (n / 1024) 1024 0).2 'E']) = true := by
      rw [noNL, noNLc, List.all_cons]
      have : "KMGTPE".data.getD (sizeLoop (n / 1024) 1024 0).2 'E' ∈
          'E' :: "KMGTPE".data := by
        rw [List.getD_eq_getElem?_getD]
        cases hg : "KMGTPE".data[(sizeLoop (n / 1024) 1024 0).2]? with
        | none => simp [hg]
        | some c =>
          rw [Option.getD_some]
          obtain ⟨hlt, he⟩ := List.getElem?_eq_some_iff.mp hg
          rw [← he]
          exact List.mem_cons_of_mem _ (List.getElem_mem hlt)
      have hall : ∀ c ∈ 'E' :: "KMGTPE".data, (c == '\n') = false := by decide
      rw [hall _ this]
      decide
    simp only [noNL_append, noNL_natToString, hc, Bool.true_and, Bool.and_true]
    decide

theorem lookup_noNL : ∀ (L : List (String × String)),
    L.all (fun kv => noNL kv.2) = true →
    ∀ k v, L.lookup k = some v → noNL v = true
  | [], _, _, _, h => by cases h
  | (a, b) :: L, hall, k, v, h => by
    rw [List.all_cons, Bool.and_eq_true] at hall
    rw [List.lookup] at h
    split at h
    · cases h
      exact hall.1
    · exact lookup_noNL L hall.2 k v h

theorem noNL_language (e : String) :
    noNL (getLanguageFromExtension e) = true := by
  rw [getLanguageFromExtension]
  cases h : languagesList.lookup e with
  | none => decide
  | some l => exact lookup_noNL languagesList (by decide) e l h

theorem noNL_goBase {s : String} (h : noNL s = true) :
    noNL (goBase s) = true := by
  rw [goBase]
  split
  · decide
  · split
    · decide
    · rw [noNL]
      show noNLc (((s.data.reverse.dropWhile (fun c => c == '/')).takeWhile
        (fun c => !(c == '/'))).reverse) = true
      rw [noNLc_reverse]
      refine noNLc_of_subset ?_ h
      intro c hc
      have h1 := List.takeWhile_subset (p := fun c => !(c == '/'))
        (l := s.data.reverse.dropWhile (fun c => c == '/')) hc
      have h2 := List.dropWhile_subset (p := fun c => c == '/')
        (l := s.data.reverse) h1
      exact List.mem_reverse.mp h2

theorem noNL_goTrim {s : String} (h : noNL s = true) :
    noNL (goTrim s) = true := by
  rw [goTrim, noNL]
  show noNLc (((s.data.dropWhile isSpaceGo).reverse.dropWhile
    isSpaceGo).reverse) = true
  rw [noNLc_reverse]
  refine noNLc_of_subset ?_ h
  intro c hc
  have h1 := List.dropWhile_subset (p := isSpaceGo)
    (l := (s.data.dropWhile isSpaceGo).reverse) hc
  rw [List.mem_reverse] at h1
  exact List.dropWhile_subset (p := isSpaceGo) (l := s.data) h1

theorem noNL_joinPath : ∀ (ps : List String),
    ps.all (fun p => noNL p) = true → noNL (joinPath ps) = true
  | [], _ => rfl
  | [p], h => by
    rw [joinPath]
    rw [List.all_cons] at h
    simpa using h
  | p :: q :: rest, h => by
    rw [List.all_cons, Bool.and_eq_true] at h
    rw [joinPath, noNL_append, noNL_append, h.1,
      noNL_joinPath (q :: rest) h.2]
    decide

theorem noNL_goStringsJoin : ∀ (ps : List String),
    ps.all (fun p => noNL p) = true →
    noNL (goStringsJoin ", " ps) = true
  | [], _ => rfl
  | [p], h => by
    rw [goStringsJoin]
    rw [List.all_cons] at h
    simpa using h
  | p :: q :: rest, h => by
    rw [List.all_cons, Bool.and_eq_true] at h
    rw [goStringsJoin, noNL_append, noNL_append, h.1,
      noNL_goStringsJoin (q :: rest) h.2]
    decide

theorem splitNLAux_noNL : ∀ (l acc : List Char), noNLc acc = true →
    ∀ x ∈ splitNLAux l acc, noNLc x = true
  | [], acc, hacc, x, hx => by
    rw [splitNLAux] at hx
    split at hx
    · cases hx
    · simp at hx
      subst hx
      rw [noNLc_reverse]
      exact hacc
  | c :: rest, acc, hacc, x, hx => by
    rw [splitNLAux] at hx
    split at hx
    · rcases List.mem_cons.mp hx with rfl | hx2
      · rw [noNLc_reverse]
        exact hacc
      · exact splitNLAux_noNL rest [] rfl x hx2
    · refine splitNLAux_noNL rest (c :: acc) ?_ x hx
      rw [noNLc, List.all_cons]
      rw [noNLc] at hacc
      rw [hacc, Bool.and_true]
      rename_i hc
      simp [hc]

theorem noNL_dropCR {l : List Char} (h : noNLc l = true) :
    noNLc (dropCR l) = true := by
  rw [dropCR]
  split
  · exact noNLc_of_subset (List.dropLast_subset l) h
  · exact h

theorem parseIgnoreContent_noNL (s : String) :
    (parseIgnoreContent s).all (fun p => noNL p) = true := by
  rw [parseIgnoreContent, List.all_eq_true]
  intro p hp
  have hp2 := List.mem_of_mem_filter hp
  rw [List.mem_map] at hp2
  obtain ⟨l, hl, rfl⟩ := hp2
  have hlnn := splitNLAux_noNL s.data [] rfl l hl
  exact noNL_goTrim (noNL_dropCR hlnn)

theorem mergedPatterns_noNL (cfg : Config) (ignFile : Option String)
    (h : cfg.ignorePatterns.all (fun p => noNL p) = true) :
    (mergedPatterns cfg ignFile).all (fun p => noNL p) = true := by
  cases ignFile with
  | none => exact h
  | some c =>
    rw [mergedPatterns, List.all_append, h, Bool.true_and]
    exact parseIgnoreContent_noNL c

/-! ## Sane trees: newline-free names and messages, contents without
premature closing fences -/

/-- No line of the content, as it will appear between the writer's two
fence lines, is itself a closing fence. -/
def contentFenceOk (c : String) : Bool :=
  (splitNLAux (c.data ++ ['\n']) []).all (fun l => !(isCloseFence l))

/-- The read-error message, if any, contains no newline. -/
def readErrOk : Option String → Bool
  | some m => noNL m
  | none => true

mutual
/-- Names and read-error messages contain no newline, and file contents
contain no all-backticks line. -/
def entryOkE : FSEntry → Bool
  | .file n c _ r => noNL n && contentFenceOk c && readErrOk r
  | .dir n ch => noNL n && entryOkL ch
def entryOkL : List FSEntry → Bool
  | [] => true
  | e :: es => entryOkE e && entryOkL es
end

mutual
/-- Names contain no newline. -/
def namesOkE : FSEntry → Bool
  | .file n _ _ _ => noNL n
  | .dir n ch => noNL n && namesOkL ch
def namesOkL : List FSEntry → Bool
  | [] => true
  | e :: es => namesOkE e && namesOkL es
end

theorem entryOkL_iff_forall : ∀ l : List FSEntry,
    entryOkL l = true ↔ ∀ e ∈ l, entryOkE e = true
  | [] => by simp [entryOkL]
  | e :: es => by
    rw [entryOkL, Bool.and_eq_true, entryOkL_iff_forall es]
    constructor
    · rintro ⟨h1, h2⟩ x hx
      rcases List.mem_cons.mp hx with rfl | hx
      · exact h1
      · exact h2 x hx
    · intro h
      exact ⟨h e (List.mem_cons_self e es),
        fun x hx => h x (List.mem_cons_of_mem e hx)⟩

theorem namesOkL_iff_forall : ∀ l : List FSEntry,
    namesOkL l = true ↔ ∀ e ∈ l, namesOkE e = true
  | [] => by simp [namesOkL]
  | e :: es => by
    rw [namesOkL, Bool.and_eq_true, namesOkL_iff_forall es]
    constructor
    · rintro ⟨h1, h2⟩ x hx
      rcases List.mem_cons.mp hx with rfl | hx
      · exact h1
      · exact h2 x hx
    · intro h
      exact ⟨h e (List.mem_cons_self e es),
        fun x hx => h x (List.mem_cons_of_mem e hx)⟩

theorem namesOkE_of_entryOkE : ∀ e : FSEntry,
    entryOkE e = true → namesOkE e = true
  | .file n c o r, h => by
    rw [entryOkE, Bool.and_eq_true, Bool.and_eq_true] at h
    exact h.1.1
  | .dir n ch, h => by
    rw [entryOkE, Bool.and_eq_true] at h
    rw [namesOkE, Bool.and_eq_true, h.1]
    refine ⟨rfl, ?_⟩
    rw [namesOkL_iff_forall]
    intro e he
    exact namesOkE_of_entryOkE e ((entryOkL_iff_forall ch).mp h.2 e he)
termination_by e => sizeOf e
decreasing_by
  have := List.sizeOf_lt_of_mem he
  simp
  omega

theorem namesOkL_of_perm {l l' : List FSEntry} (h : l.Perm l')
    (hl : namesOkL l = true) : namesOkL l' = true := by
  rw [namesOkL_iff_forall] at hl ⊢
  exact fun e he => hl e (h.mem_iff.mpr he)

theorem namesOkL_filter (p : FSEntry → Bool) (l : List FSEntry)
    (hl : namesOkL l = true) : namesOkL (l.filter p) = true := by
  rw [namesOkL_iff_forall] at hl ⊢
  exact fun e he => hl e (List.mem_of_mem_filter he)

mutual
theorem namesOkE_pruneE (cfg : Config) : ∀ e : FSEntry,
    namesOkE e = true → namesOkE (pruneE cfg e) = true
  | .file n c o r, h => h
  | .dir n ch, h => by
    rw [namesOkE, Bool.and_eq_true] at h
    rw [pruneE, namesOkE, Bool.and_eq_true, h.1]
    refine ⟨rfl, ?_⟩
    refine namesOkL_of_perm (sortEntries_perm _).symm ?_
    exact namesOkL_filter _ _ (namesOkL_pruneL cfg ch h.2)
theorem namesOkL_pruneL (cfg : Config) : ∀ l : List FSEntry,
    namesOkL l = true → namesOkL (pruneL cfg l) = true
  | [], _ => rfl
  | e :: es, h => by
    rw [namesOkL, Bool.and_eq_true] at h
    rw [pruneL, namesOkL, Bool.and_eq_true]
    exact ⟨namesOkE_pruneE cfg e h.1, namesOkL_pruneL cfg es h.2⟩
end

mutual
theorem entryOkE_swE : ∀ e : FSEntry,
    entryOkE e = true → entryOkE (swE e) = true
  | .file n c o r, h => h
  | .dir n ch, h => by
    rw [entryOkE, Bool.and_eq_true] at h
    rw [swE, entryOkE, Bool.and_eq_true, h.1]
    refine ⟨rfl, ?_⟩
    have h2 : entryOkL (swL ch) = true := entryOkL_swL ch h.2
    rw [entryOkL_iff_forall] at h2 ⊢
    intro e he
    refine h2 e ?_
    have hperm : (swL ch).Perm (sortWalk (swL ch)) :=
      (List.perm_insertionSort nameLE (swL ch)).symm
    exact hperm.mem_iff.mpr he
theorem entryOkL_swL : ∀ l : List FSEntry,
    entryOkL l = true → entryOkL (swL l) = true
  | [], _ => rfl
  | e :: es, h => by
    rw [entryOkL, Bool.and_eq_true] at h
    rw [swL, entryOkL, Bool.and_eq_true]
    exact ⟨entryOkE_swE e h.1, entryOkL_swL es h.2⟩
end

/-! ## Fence-state transitions, one printed line at a time -/

theorem headne_append {p : List Char} (hph : p ≠ [])
    (hh : (p.head? == some btick) = false) (q : List Char) :
    ((p ++ q).head? == some btick) = false := by
  rw [List.head?_append_of_ne_nil p hph]
  exact hh

theorem stepA (p : List Char) (x : String) (hp : noNLc p = true)
    (hph : p ≠ []) (hh : (p.head? == some btick) = false)
    (hx : noNL x = true) (rest : List Char) (st : Bool) :
    docFold (p ++ (x.data ++ ('\n' :: rest))) st = docFold rest st := by
  have he : p ++ (x.data ++ ('\n' :: rest)) = (p ++ x.data) ++ '\n' :: rest := by
    simp
  rw [he]
  refine docFold_line _ ?_ (headne_append hph hh _) rest st
  rw [noNLc_append, hp, Bool.true_and]
  exact hx

theorem stepB1 (p : List Char) (x : String) (c : Char) (hp : noNLc p = true)
    (hph : p ≠ []) (hh : (p.head? == some btick) = false)
    (hx : noNL x = true) (hc : (c == '\n') = false) (rest : List Char)
    (st : Bool) :
    docFold (p ++ (x.data ++ (c :: '\n' :: rest))) st = docFold rest st := by
  have he : p ++ (x.data ++ (c :: '\n' :: rest)) =
      (p ++ x.data ++ [c]) ++ '\n' :: rest := by
    simp
  rw [he]
  refine docFold_line _ ?_ ?_ rest st
  · have hx2 : noNLc x.data = true := hx
    simp only [noNLc_append, hp, hx2, Bool.true_and, Bool.and_true]
    simp [noNLc, hc]
  · rw [List.append_assoc]
    exact headne_append hph hh _

theorem stepB2 (p : List Char) (x : String) (c1 c2 : Char)
    (hp : noNLc p = true) (hph : p ≠ [])
    (hh : (p.head? == some btick) = false) (hx : noNL x = true)
    (hc1 : (c1 == '\n') = false) (hc2 : (c2 == '\n') = false)
    (rest : List Char) (st : Bool) :
    docFold (p ++ (x.data ++ (c1 :: c2 :: '\n' :: rest))) st =
      docFold rest st := by
  have he : p ++ (x.data ++ (c1 :: c2 :: '\n' :: rest)) =
      (p ++ x.data ++ [c1, c2]) ++ '\n' :: rest := by
    simp
  rw [he]
  refine docFold_line _ ?_ ?_ rest st
  · have hx2 : noNLc x.data = true := hx
    simp only [noNLc_append, hp, hx2, Bool.true_and, Bool.and_true]
    simp [noNLc, hc1, hc2]
  · rw [List.append_assoc]
    exact headne_append hph hh _

theorem stepC (p : List Char) (x : String) (q : List Char) (y : String)
    (c : Char) (hp : noNLc p = true) (hph : p ≠ [])
    (hh : (p.head? == some btick) = false) (hx : noNL x = true)
    (hq : noNLc q = true) (hy : noNL y = true) (hc : (c == '\n') = false)
    (rest : List Char) (st : Bool) :
    docFold (p ++ (x.data ++ (q ++ (y.data ++ (c :: '\n' :: rest))))) st =
      docFold rest st := by
  have he : p ++ (x.data ++ (q ++ (y.data ++ (c :: '\n' :: rest)))) =
      (p ++ x.data ++ q ++ y.data ++ [c]) ++ '\n' :: rest := by
    simp
  rw [he]
  refine docFold_line _ ?_ ?_ rest st
  · have hx2 : noNLc x.data = true := hx
    have hy2 : noNLc y.data = true := hy
    simp only [noNLc_append, hp, hx2, hq, hy2, Bool.true_and, Bool.and_true]
    simp [noNLc, hc]
  · rw [List.append_assoc, List.append_assoc, List.append_assoc]
    exact headne_append hph hh _

theorem stepOpen0 (rest : List Char) :
    docFold ("```".data ++ '\n' :: rest) false = docFold rest true := by
  have := docFold_openFence [] rest rfl
  simpa using this

theorem stepOpenL (lang : String) (hl : noNL lang = true) (rest : List Char) :
    docFold ("```".data ++ (lang.data ++ ('\n' :: rest))) false =
      docFold rest true := by
  have he : "```".data ++ (lang.data ++ ('\n' :: rest)) =
      ("```".data ++ lang.data) ++ '\n' :: rest := by
    simp
  rw [he]
  exact docFold_openFence lang.data rest hl

theorem strJoin_append : ∀ a b : List String,
    strJoin (a ++ b) = strJoin a ++ strJoin b
  | [], b => by rw [List.nil_append, strJoin, String.empty_append]
  | c :: a, b => by
    rw [List.cons_append, strJoin, strJoin, strJoin_append a b,
      String.append_assoc]

/-- Atoms for the concrete pieces of the printed lines (kept folded so
rewriting can treat them as units). -/
def litFile : List Char := "### 📄 ".data

def litTooLarge : List Char := "*File too large to display (".data

def litBinary : List Char := "*Binary file (".data

def litErr : List Char := "*Error reading file: ".data

def litSize : List Char := "*Size: ".data

def litLang : List Char := " | Language: ".data

def litTicks : List Char := "```".data

theorem stepOpenT (lang : String) (hl : noNL lang = true) (rest : List Char) :
    docFold (litTicks ++ (lang.data ++ ('\n' :: rest))) false =
      docFold rest true := stepOpenL lang hl rest

theorem stepCloseT (rest : List Char) :
    docFold (litTicks ++ ('\n' :: '\n' :: rest)) true = docFold rest false := by
  show docFold ("```".data ++ '\n' :: '\n' :: rest) true = docFold rest false
  rw [docFold_closeFence, docFold_blank]

/-- Crossing one whole per-file section of the content region leaves the
scanner outside a fence. -/
theorem section_step (rel name content : String) (ok : Bool)
    (rerr : Option String) (hrel : noNL rel = true)
    (hc : contentFenceOk content = true) (hm : readErrOk rerr = true)
    (rest : List Char) :
    docFold ((renderFileSection rel name content ok rerr).data ++ rest)
      false = docFold rest false := by
  rw [renderFileSection.eq_def]
  split
  · have hdec : ("### 📄 " ++ rel ++ "\n\n*File too large to display (" ++
        formatFileSize (goBytes content).length ++ ")*\n\n").data ++ rest =
        litFile ++ (rel.data ++ ('\n' :: '\n' ::
          (litTooLarge ++
            ((formatFileSize (goBytes content).length).data ++
              (')' :: '*' :: '\n' :: '\n' :: rest))))) := by
      simp only [litFile, litTooLarge, String.data_append, List.append_assoc,
        List.cons_append, List.nil_append]
    rw [hdec, stepA _ rel (by decide) (by decide) (by decide) hrel,
      docFold_blank,
      stepB2 _ _ ')' '*' (by decide) (by decide) (by decide)
        (noNL_formatFileSize _) (by decide) (by decide),
      docFold_blank]
  · split
    · have hdec : ("### 📄 " ++ rel ++ "\n\n*Binary file (" ++
          formatFileSize (goBytes content).length ++ ")*\n\n").data ++ rest =
          litFile ++ (rel.data ++ ('\n' :: '\n' ::
            (litBinary ++
              ((formatFileSize (goBytes content).length).data ++
                (')' :: '*' :: '\n' :: '\n' :: rest))))) := by
        simp only [litFile, litBinary, String.data_append, List.append_assoc,
          List.cons_append, List.nil_append]
      rw [hdec, stepA _ rel (by decide) (by decide) (by decide) hrel,
        docFold_blank,
        stepB2 _ _ ')' '*' (by decide) (by decide) (by decide)
          (noNL_formatFileSize _) (by decide) (by decide),
        docFold_blank]
    · cases rerr with
      | some msg =>
        rw [readErrOk] at hm
        have hdec : ("### 📄 " ++ rel ++ "\n\n*Error reading file: " ++
            msg ++ "*\n\n").data ++ rest =
            litFile ++ (rel.data ++ ('\n' :: '\n' ::
              (litErr ++
                (msg.data ++ ('*' :: '\n' :: '\n' :: rest))))) := by
          simp only [litFile, litErr, String.data_append, List.append_assoc,
            List.cons_append, List.nil_append]
        show docFold (("### 📄 " ++ rel ++ "\n\n*Error reading file: " ++
          msg ++ "*\n\n").data ++ rest) false = docFold rest false
        rw [hdec, stepA _ rel (by decide) (by decide) (by decide) hrel,
          docFold_blank,
          stepB1 _ msg '*' (by decide) (by decide) (by decide) hm (by decide),
          docFold_blank]
      | none =>
        have hdec : ("### 📄 " ++ rel ++ "\n\n" ++
            "*Size: " ++ formatFileSize (goBytes content).length ++
            " | Language: " ++
            getLanguageFromExtension (goToLower (goExt name)) ++ "*\n\n" ++
            "```" ++ getLanguageFromExtension (goToLower (goExt name)) ++
            "\n" ++ content ++ "\n```\n\n").data ++ rest =
            litFile ++ (rel.data ++ ('\n' :: '\n' ::
              (litSize ++
                ((formatFileSize (goBytes content).length).data ++
                  (litLang ++
                    ((getLanguageFromExtension (goToLower (goExt name))).data ++
                      ('*' :: '\n' :: '\n' ::
                        (litTicks ++
                          ((getLanguageFromExtension
                              (goToLower (goExt name))).data ++
                            ('\n' :: (content.data ++
                              ('\n' :: (litTicks ++
                                ('\n' :: '\n' :: rest)))))))))))))) := by
          simp only [litFile, litSize, litLang, litTicks, String.data_append,
            List.append_assoc, List.cons_append, List.nil_append]
        show docFold (("### 📄 " ++ rel ++ "\n\n" ++
          "*Size: " ++ formatFileSize (goBytes content).length ++
          " | Language: " ++
          getLanguageFromExtension (goToLower (goExt name)) ++ "*\n\n" ++
          "```" ++ getLanguageFromExtension (goToLower (goExt name)) ++
          "\n" ++ content ++ "\n```\n\n").data ++ rest) false =
          docFold rest false
        rw [hdec, stepA _ rel (by decide) (by decide) (by decide) hrel,
          docFold_blank,
          stepC _ _ _ _ '*' (by decide) (by decide) (by decide)
            (noNL_formatFileSize _) (by decide) (noNL_language _) (by decide),
          docFold_blank,
          stepOpenT _ (noNL_language _),
          docFold_content content.data _ hc, stepCloseT]

mutual
/-- Crossing the sections of one walked entry keeps the scanner outside
a fence. -/
theorem cwE_sections (cfg : Config) : ∀ (e : FSEntry) (anc : List String),
    entryOkE e = true → anc.all (fun p => noNL p) = true →
    ∀ rest : List Char,
    docFold ((strJoin ((cwE cfg e anc).map Prod.snd)).data ++ rest) false =
      docFold rest false
  | .file n c ok r, anc, he, ha, rest => by
    rw [cwE]
    split
    · rfl
    · split
      · rfl
      · split
        · rfl
        · rw [entryOkE, Bool.and_eq_true, Bool.and_eq_true] at he
          have hrel : noNL (joinPath (anc ++ [n])) = true := by
            refine noNL_joinPath _ ?_
            rw [List.all_append, ha, Bool.true_and, List.all_cons, he.1.1]
            rfl
          have hj : (strJoin [renderFileSection (joinPath (anc ++ [n]))
              n c ok r]).data ++ rest =
              (renderFileSection (joinPath (anc ++ [n])) n c ok r).data ++
                rest := by
            rw [strJoin, strJoin, String.data_append]
            simp
          rw [List.map_cons, List.map_nil, hj]
          exact section_step _ n c ok r hrel he.1.2 he.2 rest
  | .dir n ch, anc, he, ha, rest => by
    rw [cwE]
    split
    · rfl
    · rw [entryOkE, Bool.and_eq_true] at he
      refine cwL_sections cfg ch (anc ++ [n]) he.2 ?_ rest
      rw [List.all_append, ha, Bool.true_and, List.all_cons, he.1]
      rfl
/-- Crossing the sections of a walked forest keeps the scanner outside
a fence. -/
theorem cwL_sections (cfg : Config) : ∀ (es : List FSEntry)
    (anc : List String),
    entryOkL es = true → anc.all (fun p => noNL p) = true →
    ∀ rest : List Char,
    docFold ((strJoin ((cwL cfg es anc).map Prod.snd)).data ++ rest) false =
      docFold rest false
  | [], _, _, _, _ => rfl
  | e :: es, anc, he, ha, rest => by
    rw [entryOkL, Bool.and_eq_true] at he
    rw [cwL, List.map_append, strJoin_append]
    have hd : (strJoin ((cwE cfg e anc).map Prod.snd) ++
        strJoin ((cwL cfg es anc).map Prod.snd)).data ++ rest =
        (strJoin ((cwE cfg e anc).map Prod.snd)).data ++
          ((strJoin ((cwL cfg es anc).map Prod.snd)).data ++ rest) := by
      rw [String.data_append, List.append_assoc]
    rw [hd, cwE_sections cfg e anc he.1 ha,
      cwL_sections cfg es anc he.2 ha]
end

/-! ## The tree block's lines -/

theorem noNL_name_of_namesOkE : ∀ e : FSEntry,
    namesOkE e = true → noNL e.name = true
  | .file _ _ _ _, h => h
  | .dir _ _, h => by
    rw [namesOkE, Bool.and_eq_true] at h
    exact h.1

theorem noNL_decorateName (cfg : Config) (e : FSEntry)
    (h : noNL e.name = true) : noNL (decorateName cfg e) = true := by
  rw [decorateName]
  split
  · split
    · rw [noNL_append, noNL_append, h]
      decide
    · rw [noNL_append, h]
      decide
  · split
    · rw [noNL_append, h]
      decide
    · exact h

theorem headOk_append (a b : String)
    (hh : (a.data.head? == some btick) = false)
    (hs : (b.data.head? == some btick) = false) :
    ((a ++ b).data.head? == some btick) = false := by
  rw [String.data_append]
  cases hpd : a.data with
  | nil => rw [List.nil_append]; exact hs
  | cons c l =>
    rw [hpd] at hh
    exact hh

theorem headOk_append_ne (a b : String) (ha : a.data ≠ [])
    (hh : (a.data.head? == some btick) = false) :
    ((a ++ b).data.head? == some btick) = false := by
  rw [String.data_append, List.head?_append_of_ne_nil _ ha]
  exact hh

mutual
theorem emitE_linesOk (cfg : Config) : ∀ (e : FSEntry) (pre : String)
    (d : Nat) (anc : List String),
    namesOkE e = true → noNL pre = true →
    (pre.data.head? == some btick) = false →
    ∀ pr ∈ emitE cfg e pre d anc,
      noNL pr.2 = true ∧ (pr.2.data.head? == some btick) = false
  | .file _ _ _ _, _, _, _, _, _, _, _, hpr => by
    rw [emitE] at hpr
    cases hpr
  | .dir n ch, pre, d, anc, hn, hp, hh, pr, hpr => by
    rw [emitE] at hpr
    split at hpr
    · cases hpr
    · rw [namesOkE, Bool.and_eq_true] at hn
      exact emitL_linesOk cfg ch pre d anc hn.2 hp hh pr hpr
theorem emitL_linesOk (cfg : Config) : ∀ (es : List FSEntry) (pre : String)
    (d : Nat) (anc : List String),
    namesOkL es = true → noNL pre = true →
    (pre.data.head? == some btick) = false →
    ∀ pr ∈ emitL cfg es pre d anc,
      noNL pr.2 = true ∧ (pr.2.data.head? == some btick) = false
  | [], _, _, _, _, _, _, _, hpr => by
    rw [emitL] at hpr
    cases hpr
  | e :: rest, pre, d, anc, hn, hp, hh, pr, hpr => by
    rw [namesOkL, Bool.and_eq_true] at hn
    have hname : noNL e.name = true := noNL_name_of_namesOkE e hn.1
    rw [emitL] at hpr
    rcases List.mem_cons.mp hpr with rfl | hpr2
    · constructor
      · show noNL (pre ++ _ ++ decorateName cfg e) = true
        rw [noNL_append, noNL_append, hp, Bool.true_and,
          noNL_decorateName cfg e hname, Bool.and_true]
        split <;> decide
      · show ((pre ++ _ ++ decorateName cfg e).data.head? ==
          some btick) = false
        refine headOk_append_ne _ _ ?_ ?_
        · rw [String.data_append]
          intro hcontra
          rcases List.append_eq_nil.mp hcontra with ⟨h1, h2⟩
          split at h2 <;> cases h2
        · refine headOk_append _ _ hh ?_
          split <;> decide
    · rcases List.mem_append.mp hpr2 with hpr3 | hpr4
      · have hpn : noNL (pre ++ (if rest.isEmpty then "    " else "│   "))
            = true := by
          rw [noNL_append, hp, Bool.true_and]
          split <;> decide
        have hph : ((pre ++ (if rest.isEmpty then "    " else "│   ")).data.head?
            == some btick) = false := by
          refine headOk_append _ _ hh ?_
          split <;> decide
        exact emitE_linesOk cfg e _ (d + 1) (anc ++ [e.name]) hn.1
          hpn hph pr hpr3
      · exact emitL_linesOk cfg rest pre d anc hn.2 hp hh pr hpr4
end

theorem treeSeg : ∀ (lines : List String),
    (∀ l ∈ lines, noNL l = true ∧ (l.data.head? == some btick) = false) →
    ∀ rest : List Char,
    docFold ((strJoin (lines.map (fun l => l ++ "\n"))).data ++ rest) true =
      docFold rest true
  | [], _, _ => rfl
  | l :: ls, h, rest => by
    have hl := h l (List.mem_cons_self l ls)
    have hd : (strJoin ((l :: ls).map (fun x => x ++ "\n"))).data ++ rest =
        l.data ++ ('\n' ::
          ((strJoin (ls.map (fun x => x ++ "\n"))).data ++ rest)) := by
      rw [List.map_cons, strJoin, String.data_append, String.data_append]
      have hn : ("\n" : String).data = ['\n'] := rfl
      rw [hn, List.append_assoc, List.append_assoc]
      rfl
    rw [hd, docFold_line l.data hl.1 hl.2,
      treeSeg ls (fun x hx => h x (List.mem_cons_of_mem l hx)) rest]

theorem prunedNamesOk (cfg : Config) (root : List FSEntry)
    (h : namesOkL root = true) :
    namesOkL (sortEntries (filterEntries cfg (pruneL cfg root))) = true :=
  namesOkL_of_perm (sortEntries_perm _).symm
    (namesOkL_filter _ _ (namesOkL_pruneL cfg root h))

theorem namesOkL_of_entryOkL {l : List FSEntry} (h : entryOkL l = true) :
    namesOkL l = true := by
  rw [namesOkL_iff_forall]
  rw [entryOkL_iff_forall] at h
  exact fun e he => namesOkE_of_entryOkE e (h e he)

theorem entryOkL_of_perm {l l' : List FSEntry} (h : l.Perm l')
    (hl : entryOkL l = true) : entryOkL l' = true := by
  rw [entryOkL_iff_forall] at hl ⊢
  exact fun e he => hl e (h.mem_iff.mpr he)

theorem noNL_goBool (b : Bool) : noNL (goBool b) = true := by
  cases b <;> decide

theorem noNL_projectName (cfg : Config) (cwd : String)
    (htd : noNL cfg.targetDir = true) (hcwd : noNL cwd = true) :
    noNL (projectNameOf cfg cwd) = true := by
  rw [projectNameOf]
  split
  · exact noNL_goBase hcwd
  · exact noNL_goBase htd

/-! ## Walking the document, segment by segment -/

def litH1 : List Char := "# ".data

def litGen : List Char :=
  "> Generated with [foldermd](https://github.com/yourusername/foldermd) on ".data

def litOverview : List Char := "## 📊 Project Overview".data

def litTotF : List Char := "- **Total Files:** ".data

def litTotD : List Char := "- **Total Directories:** ".data

def litRoot : List Char := "- **Project Root:** `".data

def litStruct : List Char := "## 📁 Project Structure".data

def litLegend : List Char := "Legend: 📁 Directory | 📄 File".data

def litFC : List Char := "## 📄 File Contents".data

def litDash : List Char := "---".data

def litGenWith : List Char := "## 🛠️ Generated with foldermd".data

def litConfUsed : List Char := "**Configuration used:**".data

def litIncF : List Char := "- Include files: `".data

def litIncC : List Char := "- Include content: `".data

def litMaxD : List Char := "- Max depth: `".data

def litShowH : List Char := "- Show hidden: `".data

def litIgn : List Char := "- Ignore patterns: `".data

def litFootNote : List Char :=
  "*This README was automatically generated. Consider customizing it for your project!*".data

theorem stepOpenT0 (rest : List Char) :
    docFold (litTicks ++ '\n' :: rest) false = docFold rest true :=
  stepOpen0 rest

theorem btick_eq : btick = '\x60' := rfl

theorem segHeader (cfg : Config) (cwd now : String)
    (hpn : noNL (projectNameOf cfg cwd) = true) (hnow : noNL now = true)
    (rest : List Char) :
    docFold ((strJoin (headerChunks cfg cwd now)).data ++ rest) false =
      docFold rest false := by
  rw [headerChunks]
  have hdec : (strJoin ["# " ++ projectNameOf cfg cwd ++ "\n\n",
      "> Generated with [foldermd](https://github.com/yourusername/foldermd) on "
        ++ now ++ "\n\n"]).data ++ rest =
      litH1 ++ ((projectNameOf cfg cwd).data ++ ('\n' :: '\n' ::
        (litGen ++ (now.data ++ ('\n' :: '\n' :: rest))))) := by
    simp only [strJoin, litH1, litGen, String.data_append, List.append_assoc,
      List.cons_append, List.nil_append]
  rw [hdec, stepA _ _ (by decide) (by decide) (by decide) hpn, docFold_blank,
    stepA _ _ (by decide) (by decide) (by decide) hnow, docFold_blank]

theorem segOverview (dir : String) (root : List FSEntry)
    (htd : noNL dir = true) (rest : List Char) :
    docFold ((strJoin (writeProjectInfo dir root)).data ++ rest) false =
      docFold rest false := by
  rw [writeProjectInfo]
  have hdec : (strJoin ["## 📊 Project Overview\n\n",
      "- **Total Files:** " ++ toString (countL root).1 ++ "\n",
      "- **Total Directories:** " ++
        toString ((countL root).2 + 1 - 1) ++ "\n",
      "- **Project Root:** `" ++ dir ++ "`\n\n"]).data ++ rest =
      litOverview ++ ('\n' :: '\n' ::
        (litTotF ++ ((toString (countL root).1).data ++ ('\n' ::
          (litTotD ++ ((toString ((countL root).2 + 1 - 1)).data ++ ('\n' ::
            (litRoot ++ (dir.data ++
              (btick :: '\n' :: '\n' :: rest)))))))))) := by
    simp only [strJoin, litOverview, litTotF, litTotD, litRoot, btick_eq,
      String.data_append, List.append_assoc, List.cons_append,
      List.nil_append]
  rw [hdec, docFold_line litOverview (by decide) (by decide), docFold_blank,
    stepA _ _ (by decide) (by decide) (by decide) (noNL_natToString _),
    stepA _ _ (by decide) (by decide) (by decide) (noNL_natToString _),
    stepB1 _ _ btick (by decide) (by decide) (by decide) htd (by decide),
    docFold_blank]

theorem segStruct (rest : List Char) :
    docFold ((strJoin ["## 📁 Project Structure\n\n"]).data ++ rest) false =
      docFold rest false := by
  have hdec : (strJoin ["## 📁 Project Structure\n\n"]).data ++ rest =
      litStruct ++ ('\n' :: '\n' :: rest) := by
    simp only [strJoin, litStruct, String.data_append, List.append_assoc,
      List.cons_append, List.nil_append]
  rw [hdec, docFold_line litStruct (by decide) (by decide), docFold_blank]

theorem segLegend (c : Config) (rest : List Char) :
    docFold ((strJoin (legendChunks c)).data ++ rest) false =
      docFold rest false := by
  rw [legendChunks]
  split
  · have hdec : (strJoin ["```\n", "Legend: 📁 Directory | 📄 File\n",
        "```\n\n"]).data ++ rest =
        litTicks ++ ('\n' :: (litLegend ++ ('\n' ::
          (litTicks ++ ('\n' :: '\n' :: rest))))) := by
      simp only [strJoin, litTicks, litLegend, String.data_append,
        List.append_assoc, List.cons_append, List.nil_append]
    rw [hdec, stepOpenT0, docFold_line litLegend (by decide) (by decide),
      stepCloseT]
  · rfl

theorem segTree (c : Config) (root : List FSEntry)
    (hn : namesOkL root = true) (rest : List Char) :
    docFold ((strJoin (treeChunks c root)).data ++ rest) false =
      docFold rest false := by
  have hlines : ∀ l ∈ treeLines c root,
      noNL l = true ∧ (l.data.head? == some btick) = false := by
    intro l hl
    rw [treeLines, List.mem_map] at hl
    obtain ⟨pr, hpr, rfl⟩ := hl
    rw [writeTreePairs] at hpr
    split at hpr
    · cases hpr
    · exact emitL_linesOk c _ "" 0 [] (prunedNamesOk c root hn)
        (by decide) (by decide) pr hpr
  rw [treeChunks, strJoin_append, strJoin_append]
  have hd : ((strJoin ["```\n"] ++
      strJoin ((treeLines c root).map (fun l => l ++ "\n"))) ++
      strJoin ["```\n\n"]).data ++ rest =
      (strJoin ["```\n"]).data ++
        ((strJoin ((treeLines c root).map (fun l => l ++ "\n"))).data ++
          ((strJoin ["```\n\n"]).data ++ rest)) := by
    rw [String.data_append, String.data_append, List.append_assoc,
      List.append_assoc]
  have hopen : ∀ X : List Char,
      (strJoin ["```\n"]).data ++ X = litTicks ++ ('\n' :: X) := by
    intro X
    simp only [strJoin, litTicks, btick_eq, String.data_append,
      List.append_assoc, List.cons_append, List.nil_append]
  have hclose : ∀ X : List Char,
      (strJoin ["```\n\n"]).data ++ X = litTicks ++ ('\n' :: '\n' :: X) := by
    intro X
    simp only [strJoin, litTicks, btick_eq, String.data_append,
      List.append_assoc, List.cons_append, List.nil_append]
  rw [hd, hopen, stepOpenT0, treeSeg (treeLines c root) hlines, hclose,
    stepCloseT]

theorem segContent (c : Config) (root : List FSEntry)
    (he : entryOkL root = true) (rest : List Char) :
    docFold ((strJoin (contentChunks c root)).data ++ rest) false =
      docFold rest false := by
  rw [contentChunks]
  split
  · have hd : (strJoin ("## 📄 File Contents\n\n" ::
        (contentWalk c root).map Prod.snd)).data ++ rest =
        litFC ++ ('\n' :: '\n' ::
          ((strJoin ((contentWalk c root).map Prod.snd)).data ++ rest)) := by
      rw [strJoin, String.data_append, List.append_assoc]
      simp only [litFC, List.cons_append, List.nil_append]
    rw [hd, docFold_line litFC (by decide) (by decide), docFold_blank,
      contentWalk]
    split
    · rfl
    · refine cwL_sections c _ [] ?_ rfl rest
      exact entryOkL_of_perm (List.perm_insertionSort nameLE (swL root)).symm
        (entryOkL_swL root he)
  · rfl

set_option maxRecDepth 8192 in
theorem segFooter (c : Config)
    (hp : c.ignorePatterns.all (fun p => noNL p) = true) (rest : List Char) :
    docFold ((strJoin (footerChunks c)).data ++ rest) false =
      docFold rest false := by
  rw [footerChunks]
  have hdec : (strJoin ["---\n\n",
      "## 🛠️ Generated with foldermd\n\n",
      "**Configuration used:**\n",
      "- Include files: `" ++ goBool c.includeFiles ++ "`\n",
      "- Include content: `" ++ goBool c.includeContent ++ "`\n",
      "- Max depth: `" ++ toString c.maxDepth ++ "`\n",
      "- Show hidden: `" ++ goBool c.showHidden ++ "`\n",
      "- Ignore patterns: `" ++ goStringsJoin ", " c.ignorePatterns ++ "`\n",
      "\n*This README was automatically generated. Consider customizing it for your project!*\n"]).data
        ++ rest =
      litDash ++ ('\n' :: '\n' ::
        (litGenWith ++ ('\n' :: '\n' ::
          (litConfUsed ++ ('\n' ::
            (litIncF ++ ((goBool c.includeFiles).data ++ (btick :: '\n' ::
              (litIncC ++ ((goBool c.includeContent).data ++ (btick :: '\n' ::
                (litMaxD ++ ((toString c.maxDepth).data ++ (btick :: '\n' ::
                  (litShowH ++ ((goBool c.showHidden).data ++ (btick :: '\n' ::
                    (litIgn ++
                      ((goStringsJoin ", " c.ignorePatterns).data ++
                        (btick :: '\n' :: '\n' ::
                          (litFootNote ++
                            ('\n' :: rest)))))))))))))))))))))) := by
    simp only [strJoin, litDash, litGenWith, litConfUsed, litIncF, litIncC,
      litMaxD, litShowH, litIgn, litFootNote, btick_eq, String.data_append,
      List.append_assoc, List.cons_append, List.nil_append]
  rw [hdec, docFold_line litDash (by decide) (by decide), docFold_blank,
    docFold_line litGenWith (by decide) (by decide), docFold_blank,
    docFold_line litConfUsed (by decide) (by decide),
    stepB1 _ _ btick (by decide) (by decide) (by decide)
      (noNL_goBool _) (by decide),
    stepB1 _ _ btick (by decide) (by decide) (by decide)
      (noNL_goBool _) (by decide),
    stepB1 _ _ btick (by decide) (by decide) (by decide)
      (noNL_intToString _) (by decide),
    stepB1 _ _ btick (by decide) (by decide) (by decide)
      (noNL_goBool _) (by decide),
    stepB1 _ _ btick (by decide) (by decide) (by decide)
      (noNL_goStringsJoin _ hp) (by decide),
    docFold_blank, docFold_line litFootNote (by decide) (by decide)]

/-- C1 (amended): the generated document's fenced blocks are all closed
provided the inputs cannot break a line or forge a fence: the working
directory, timestamp, target directory and every ignore pattern contain
no newline, and in the tree every name and read-error message contains
no newline and no file content has an all-backticks line (which the
code would pass through verbatim inside an open fence).  The unamended
claim — for every input tree, including contents with backtick fence
lines — is refuted by `C1_fences_counterexample`. -/
theorem C1_fences_wellformed_amended (cfg : Config) (cwd now : String)
    (ignFile : Option String) (root : List FSEntry)
    (hcwd : noNL cwd = true) (hnow : noNL now = true)
    (htd : noNL cfg.targetDir = true)
    (hpat : cfg.ignorePatterns.all (fun p => noNL p) = true)
    (hroot : entryOkL root = true) :
    wellFormedFences (generateReadmeDoc cfg cwd now ignFile root) = true := by
  rw [wellFormedFences]
  have hmain : fenceFold
      (splitNLAux (generateReadmeDoc cfg cwd now ignFile root).data [])
      false = false := by
    show docFold (generateReadmeDoc cfg cwd now ignFile root).data
      false = false
    rw [generateReadmeDoc, generateReadmeChunks, strJoin_append,
      strJoin_append, strJoin_append, strJoin_append, strJoin_append,
      strJoin_append]
    have hd : (strJoin (headerChunks cfg cwd now) ++
        strJoin (writeProjectInfo cfg.targetDir root) ++
        strJoin ["## 📁 Project Structure\n\n"] ++
        strJoin (legendChunks (mergeConfig cfg ignFile)) ++
        strJoin (treeChunks (mergeConfig cfg ignFile) root) ++
        strJoin (contentChunks (mergeConfig cfg ignFile) root) ++
        strJoin (footerChunks (mergeConfig cfg ignFile))).data =
        (strJoin (headerChunks cfg cwd now)).data ++
          ((strJoin (writeProjectInfo cfg.targetDir root)).data ++
            ((strJoin ["## 📁 Project Structure\n\n"]).data ++
              ((strJoin (legendChunks (mergeConfig cfg ignFile))).data ++
                ((strJoin (treeChunks (mergeConfig cfg ignFile) root)).data ++
                  ((strJoin
                    (contentChunks (mergeConfig cfg ignFile) root)).data ++
                    ((strJoin
                      (footerChunks (mergeConfig cfg ignFile))).data ++
                      [])))))) := by
      simp only [String.data_append, List.append_assoc, List.append_nil]
    rw [hd, segHeader cfg cwd now (noNL_projectName cfg cwd htd hcwd) hnow,
      segOverview cfg.targetDir root htd, segStruct,
      segLegend (mergeConfig cfg ignFile),
      segTree (mergeConfig cfg ignFile) root (namesOkL_of_entryOkL hroot),
      segContent (mergeConfig cfg ignFile) root hroot,
      segFooter (mergeConfig cfg ignFile)
        (mergedPatterns_noNL cfg ignFile hpat)]
    rfl
  rw [hmain]
  rfl

def cfgC1 : Config := Config.mk true true "README.md" [] (-1) false "proj"

def rootC1 : List FSEntry := [FSEntry.file "a.txt" "```" true none]

/-- C1 counterexample: with content mode on and a file whose content is
the single line three-backticks, the writer's fences are closed early by
the embedded line and the document ends inside an unclosed block — the
generated Markdown is not well-formed. -/
theorem C1_fences_counterexample :
    wellFormedFences
      (generateReadmeDoc cfgC1 "cwd" "2025-01-01 00:00:00" none rootC1) =
      false := by
  decide

theorem C1_fences_wellformed_amended_witness :
    ((noNL "cwd" = true) ∧ (noNL "2025-01-01 00:00:00" = true) ∧
      (noNL cfgC1.targetDir = true) ∧
      (cfgC1.ignorePatterns.all (fun p => noNL p) = true) ∧
      (entryOkL [FSEntry.file "a.txt" "hello" true none] = true)) ∧
    wellFormedFences (generateReadmeDoc cfgC1 "cwd" "2025-01-01 00:00:00"
      none [FSEntry.file "a.txt" "hello" true none]) = true :=
  ⟨by decide,
    C1_fences_wellformed_amended cfgC1 "cwd" "2025-01-01 00:00:00" none
      [FSEntry.file "a.txt" "hello" true none]
      (by decide) (by decide) (by decide) (by decide) (by decide)⟩

end FolderMD
